import Mathlib

set_option maxRecDepth 100000
set_option maxHeartbeats 2000000

/-!
Verification of the documentation-to-wiki migration engine
(scripts/wiki-migration/link-converter.py).

Strings are modelled as `List Char`.  The Python string primitives that the
script uses (`str.replace`, `str.title`, `str.strip`, `str.split`, regular
expression substitution and counting with the specific patterns appearing in
the script) are embedded as executable Lean functions.  Scanning functions
that are not structurally recursive take an explicit fuel argument; every
wrapper passes the length of its input, which is always sufficient because
each step of a scan consumes at least one character.
-/

/-- ASCII uppercase conversion, as Python `str.upper` acts on ASCII letters. -/
def pyUpper (c : Char) : Char :=
  if 97 ≤ c.toNat ∧ c.toNat ≤ 122 then Char.ofNat (c.toNat - 32) else c

/-- ASCII lowercase conversion, as Python `str.lower` acts on ASCII letters. -/
def pyLower (c : Char) : Char :=
  if 65 ≤ c.toNat ∧ c.toNat ≤ 90 then Char.ofNat (c.toNat + 32) else c

/-- A cased character in the ASCII range: exactly the ASCII letters carry the
Cased property there. -/
def casedA (c : Char) : Bool :=
  (97 ≤ c.toNat && c.toNat ≤ 122) || (65 ≤ c.toNat && c.toNat ≤ 90)

/-- The Cased property of the Unicode database as Python `str.title` consults
it, on the character set this development works over: the ASCII letters and
U+01F0 (the small j with caron, code point 496) are cased; U+030C (the
combining caron, code point 780) and the other characters appearing here are
not. -/
def pyCased (c : Char) : Bool :=
  casedA c || (c.toNat == 496)

/-- Python whitespace characters in the ASCII range (`str.strip` set). -/
def pyIsSpace (c : Char) : Bool :=
  c = ' ' || c = '\t' || c = '\n' || c = '\x0d' || c = '\x0b' || c = '\x0c'

/-- Python `str.strip`: drop whitespace from both ends. -/
def pyStrip (s : List Char) : List Char :=
  ((s.dropWhile pyIsSpace).reverse.dropWhile pyIsSpace).reverse

/-- The full titlecase mapping used by Python `str.title`, on the modelled
character set: an ASCII lowercase letter maps to the corresponding uppercase
letter; U+01F0, which has no precomposed titlecase form, expands per the
SpecialCasing data to U+004A followed by U+030C; every other character of the
modelled set is unchanged.  Full mappings may expand a character to several
characters, so the result is a list. -/
def pyTitleChar (c : Char) : List Char :=
  if 97 ≤ c.toNat ∧ c.toNat ≤ 122 then [Char.ofNat (c.toNat - 32)]
  else if c.toNat = 496 then ['J', Char.ofNat 780]
  else [c]

/-- The full lowercase mapping used by Python `str.title` after a cased
character; on the modelled character set every lowercase mapping is a single
character, given by `pyLower`. -/
def pyLowerChar (c : Char) : List Char := [pyLower c]

/-- Worker for Python `str.title`, following the CPython loop: each character
is lowercased when the previous input character was cased and titlecased
otherwise, both through the full mappings, and the cased flag is recomputed
from the input character (not from its mapping). -/
def pyTitleAux : Bool → List Char → List Char
  | _, [] => []
  | prev, c :: cs =>
    (if prev then pyLowerChar c else pyTitleChar c) ++ pyTitleAux (pyCased c) cs

/-- Python `str.title`. -/
def pyTitle (s : List Char) : List Char := pyTitleAux false s

/-- The title-case loop specialized to ASCII input, where both mappings are
single characters and the cased test is `casedA`; the lemma
`pyTitleAux_eq_titleAuxA` identifies it with `pyTitleAux` on ASCII strings. -/
def titleAuxA : Bool → List Char → List Char
  | _, [] => []
  | prev, c :: cs =>
    if casedA c then
      (if prev then pyLower c else pyUpper c) :: titleAuxA true cs
    else
      c :: titleAuxA false cs

/-- All characters of a string lie in the ASCII range. -/
def asciiOnly (s : List Char) : Bool := s.all (fun c => c.toNat ≤ 127)

/-- Worker for Python `str.replace`: leftmost, non-overlapping occurrences of
`pat` are replaced by `rep`.  Fuel decreases by one each step; each step
consumes at least one input character (for nonempty `pat`). -/
def pyReplaceAux (pat rep : List Char) : Nat → List Char → List Char
  | _, [] => []
  | 0, s => s
  | fuel + 1, c :: cs =>
    if pat ≠ [] ∧ pat.isPrefixOf (c :: cs) then
      rep ++ pyReplaceAux pat rep fuel (List.drop pat.length (c :: cs))
    else
      c :: pyReplaceAux pat rep fuel cs

/-- Python `str.replace` (replace every occurrence). -/
def pyReplace (pat rep s : List Char) : List Char :=
  pyReplaceAux pat rep s.length s

/-- Substring containment test matching the scan order of `pyReplaceAux`. -/
def containsSub (pat : List Char) : List Char → Bool
  | [] => pat.isEmpty
  | c :: cs => pat.isPrefixOf (c :: cs) || containsSub pat cs

/-- The ordered acronym table of `convert_filename_to_wiki_title`
(`title_mapping` in the source); applied in this order as plain substring
replacements. -/
def title_mapping : List (List Char × List Char) :=
  [("Api".data, "API".data), ("Kpi".data, "KPI".data), ("Prd".data, "PRD".data),
   ("Ui".data, "UI".data), ("Ux".data, "UX".data), ("Pwa".data, "PWA".data),
   ("Sql".data, "SQL".data), ("Html".data, "HTML".data), ("Css".data, "CSS".data),
   ("Json".data, "JSON".data), ("Http".data, "HTTP".data), ("Https".data, "HTTPS".data),
   ("Aws".data, "AWS".data), ("Gcp".data, "GCP".data)]

/-- The hyphen/title-case/hyphen step of the Title Normalizer, before the
acronym table is applied. -/
def hyphenTitle (name : List Char) : List Char :=
  pyReplace [' '] ['-'] (pyTitle (pyReplace ['-'] [' '] name))

/-- The Title Normalizer `convert_filename_to_wiki_title`: remove every
occurrence of ".md", convert hyphens to spaces, title-case, convert spaces
back to hyphens, then apply the acronym table in order. -/
def convert_filename_to_wiki_title (filename : List Char) : List Char :=
  let name := pyReplace ".md".data [] filename
  let title := hyphenTitle name
  title_mapping.foldl (fun acc pr => pyReplace pr.1 pr.2 acc) title

/-- Matcher for the one-group substitution patterns of `convert_link_patterns`
(patterns 1, 2, 4, 6), each of regex shape: a literal close-bracket and open
parenthesis, a literal path lead-in `lead`, a nonempty group of
non-close-paren characters, the literal ".md" and a close paren.  `rest0` is
the input just after the opening parenthesis.  Returns the captured group and
the input remaining after the match.  The match is deterministic: the group
cannot cross a close paren, so the ".md" must sit immediately before the first
close paren. -/
def matchOneGroup (lead : List Char) (rest0 : List Char) :
    Option (List Char × List Char) :=
  if lead.isPrefixOf rest0 then
    let rest1 := List.drop lead.length rest0
    let beforeClose := rest1.takeWhile (fun c => c ≠ ')')
    match rest1.dropWhile (fun c => c ≠ ')') with
    | [] => none
    | _ :: restAfter =>
      if 4 ≤ beforeClose.length ∧
          List.drop (beforeClose.length - 3) beforeClose = ".md".data then
        some (beforeClose.take (beforeClose.length - 3), restAfter)
      else none
  else none

/-- Matcher for the two-group substitution patterns of `convert_link_patterns`
(patterns 3 and 5): after the lead-in, a nonempty group of non-slash
characters, a slash, then a nonempty group of non-close-paren characters,
".md" and a close paren.  Returns the second captured group (the only one the
replacement uses) and the remaining input. -/
def matchTwoGroup (lead : List Char) (rest0 : List Char) :
    Option (List Char × List Char) :=
  if lead.isPrefixOf rest0 then
    let rest1 := List.drop lead.length rest0
    let dirPart := rest1.takeWhile (fun c => c ≠ '/')
    match rest1.dropWhile (fun c => c ≠ '/') with
    | [] => none
    | _ :: rest2 =>
      if dirPart = [] then none
      else
        let beforeClose := rest2.takeWhile (fun c => c ≠ ')')
        match rest2.dropWhile (fun c => c ≠ ')') with
        | [] => none
        | _ :: restAfter =>
          if 4 ≤ beforeClose.length ∧
              List.drop (beforeClose.length - 3) beforeClose = ".md".data then
            some (beforeClose.take (beforeClose.length - 3), restAfter)
          else none
  else none

/-- One `re.sub` pass: scan left to right; at each close-bracket directly
followed by an open parenthesis try `m`; on a match emit the rewritten link
target `out group` in place of the old target and continue after the match,
otherwise move forward one character. -/
def subPass (m : List Char → Option (List Char × List Char))
    (out : List Char → List Char) : Nat → List Char → List Char
  | _, [] => []
  | 0, s => s
  | fuel + 1, c :: cs =>
    if c = ']' then
      match cs with
      | [] => ']' :: subPass m out fuel []
      | c2 :: rest0 =>
        if c2 = '(' then
          match m rest0 with
          | some gr => ']' :: '(' :: (out gr.1 ++ ')' :: subPass m out fuel gr.2)
          | none => ']' :: subPass m out fuel (c2 :: rest0)
        else ']' :: subPass m out fuel (c2 :: rest0)
    else c :: subPass m out fuel cs

/-- The Link Rewriter `convert_link_patterns`: the six `re.sub` passes in
source order.  Patterns 1, 2 and 4 keep the captured group verbatim;
patterns 3, 5 and 6 pass it through the Title Normalizer. -/
def convert_link_patterns (content : List Char) : List Char :=
  let s1 := subPass (matchOneGroup "./".data) id content.length content
  let s2 := subPass (matchOneGroup "../".data) id s1.length s1
  let s3 := subPass (matchTwoGroup "../".data) convert_filename_to_wiki_title s2.length s2
  let s4 := subPass (matchOneGroup "../../".data) id s3.length s3
  let s5 := subPass (matchTwoGroup "./".data) convert_filename_to_wiki_title s4.length s4
  subPass (matchOneGroup []) convert_filename_to_wiki_title s5.length s5

/-- Worker counting the matches of the inline-link regex (a bracketed nonempty
stretch of non-close-bracket characters directly followed by a parenthesized
nonempty stretch of non-close-paren characters), as `re.findall` does:
leftmost matches, scanning resumes after each match. -/
def linkSpan (cs : List Char) : Option (List Char) :=
  if cs.takeWhile (fun x => x ≠ ']') = [] then none
  else
    match cs.dropWhile (fun x => x ≠ ']') with
    | [] => none
    | _ :: afterBr =>
      match afterBr with
      | [] => none
      | c2 :: r2 =>
        if c2 = '(' then
          if r2.takeWhile (fun x => x ≠ ')') = [] then none
          else
            match r2.dropWhile (fun x => x ≠ ')') with
            | [] => none
            | _ :: r3 => some r3
        else none

def countLinksAux : Nat → List Char → Nat
  | _, [] => 0
  | 0, _ => 0
  | fuel + 1, c :: cs =>
    if c = '[' then
      match linkSpan cs with
      | some r3 => 1 + countLinksAux fuel r3
      | none => countLinksAux fuel cs
    else countLinksAux fuel cs

/-- Number of inline markdown links in a string, as counted by the `re.findall`
calls of the script. -/
def countLinks (s : List Char) : Nat := countLinksAux s.length s

/-- Python `content.split(newline)`: always at least one (possibly empty)
line. -/
def splitLines : List Char → List (List Char)
  | [] => [[]]
  | c :: cs =>
    if c = '\n' then [] :: splitLines cs
    else
      match splitLines cs with
      | l :: ls => (c :: l) :: ls
      | [] => [[c]]

/-- Python `'\n'.join(lines)`. -/
def joinLines (ls : List (List Char)) : List Char := List.intercalate ['\n'] ls

/-- The display title chosen by `add_wiki_metadata`: the stripped text of the
first body line when that line is a level-1 heading and the stripped text is
nonempty (Python `original_title or title`), otherwise the provided title. -/
def displayTitleOf (content title : List Char) : List Char :=
  match splitLines content with
  | l0 :: _ =>
    if "# ".data.isPrefixOf l0 then
      let t := pyStrip (List.drop 2 l0)
      if t = [] then title else t
    else title
  | [] => title

/-- The lines of the body that remain after `add_wiki_metadata` removes a
leading level-1 heading line. -/
def bodyLinesOf (content : List Char) : List (List Char) :=
  match splitLines content with
  | l0 :: rest => if "# ".data.isPrefixOf l0 then rest else l0 :: rest
  | [] => []

/-- The fixed header block of `add_wiki_metadata` for a display title and a
category label. -/
def wikiHeader (displayTitle category : List Char) : List Char :=
  "# ".data ++ displayTitle ++ "\n\n**Category**: ".data ++ category ++
    "\n**Last Updated**: August 12, 2025\n**Status**: Current\n\n---\n\n".data

/-- The fixed footer block of `add_wiki_metadata`. -/
def wikiFooter : List Char :=
  "\n\n---\n\n## Related Documentation\n\n*See the [Home](Home) page for complete documentation navigation.*\n\n---\n\n*This page is part of the Nearest Nice Weather project documentation. Please keep it current as the project evolves.*".data

/-- The Metadata Wrapper `add_wiki_metadata`.  Note: the list comprehension in
the source keeps only lines whose stripped form is nonempty, so it removes
every whitespace-only line of the body, wherever it occurs; the while loop
that follows it in the source pops leading blank lines from an already
blank-free list and is therefore a no-op, which the `dropWhile` reproduces. -/
def add_wiki_metadata (content title category : List Char) : List Char :=
  let contentLines :=
    ((bodyLinesOf content).filter (fun l => pyStrip l ≠ [])).dropWhile
      (fun l => pyStrip l = [])
  wikiHeader (displayTitleOf content title) category ++ joinLines contentLines ++ wikiFooter

/-- A per-file record mirroring the dictionary that `process_file` returns. -/
structure ProcessingResult where
  success : Bool
  original_file : List Char
  wiki_file : List Char := []
  wiki_title : List Char := []
  original_links : Nat := 0
  converted_links : Nat := 0
  content_length : Nat := 0
  error : List Char := []
  deriving Repr, DecidableEq

/-- The successful branch of `process_file` on a file whose content was read:
rewrite links, derive the wiki title from the stem, wrap with metadata, and
count inline links in the raw content and in the final written content.
Returns the result record together with the content written to disk. -/
def process_file_ok (content stem category : List Char) :
    ProcessingResult × List Char :=
  let converted := convert_link_patterns content
  let wiki_title := convert_filename_to_wiki_title stem
  let finalContent := add_wiki_metadata converted wiki_title category
  ({ success := true
     original_file := stem
     wiki_file := wiki_title ++ ".md".data
     wiki_title := wiki_title
     original_links := countLinks content
     converted_links := countLinks finalContent
     content_length := finalContent.length }, finalContent)

/-- The failure branch of `process_file`: any exception is caught and turned
into a record with `success := false` and the message; nothing is written. -/
def process_file_err (stem msg : List Char) : ProcessingResult :=
  { success := false, original_file := stem, error := msg }

/-- The literal part of the regex that `main` uses to read the category back
out of a written page. -/
def categoryMarker : List Char := "**Category**:".data

/-- The tail of the category regex after the literal marker: greedy whitespace
skip, then a nonempty capture of non-newline characters.  When everything
after the marker is whitespace up to the end of the string, the whitespace
star backtracks and the capture starts at the last non-newline whitespace
character of that run. -/
def categoryMatchTail (rest : List Char) : Option (List Char) :=
  let r2 := rest.dropWhile pyIsSpace
  if r2 ≠ [] then some (r2.takeWhile (fun c => c ≠ '\n'))
  else
    match (rest.takeWhile pyIsSpace).reverse.dropWhile (fun c => c = '\n') with
    | [] => none
    | c :: _ => some [c]

/-- The `re.search` of `main` for the category header line: leftmost position
where the marker matches and the tail succeeds; returns the raw captured
group. -/
def pyCategorySearch : List Char → Option (List Char)
  | [] => none
  | c :: cs =>
    if categoryMarker.isPrefixOf (c :: cs) then
      match categoryMatchTail (List.drop categoryMarker.length (c :: cs)) with
      | some g => some g
      | none => pyCategorySearch cs
    else pyCategorySearch cs

/-- The category that `main` files a written page under when building the
index: the stripped captured group, or the "Unknown" fallback when the regex
finds no match. -/
def index_category_of_page (page : List Char) : List Char :=
  match pyCategorySearch page with
  | some g => pyStrip g
  | none => "Unknown".data

/-- One unit of work for the Batch Driver: a source file stem, its content
(`none` when the file is unreadable) and the category label of the directory
it came from. -/
structure Job where
  stem : List Char
  content : Option (List Char)
  category : List Char
  deriving Repr, DecidableEq

/-- Update of the modelled output directory: writing a file replaces any
previous content under the same name. -/
def fsUpdate (k v : List Char) :
    List (List Char × List Char) → List (List Char × List Char)
  | [] => [(k, v)]
  | (k', v') :: rest => if k' = k then (k, v) :: rest else (k', v') :: fsUpdate k v rest

/-- Lookup in the modelled output directory. -/
def fsLookup (k : List Char) : List (List Char × List Char) → Option (List Char)
  | [] => none
  | (k', v') :: rest => if k' = k then some v' else fsLookup k rest

/-- The accumulating state of `main`: the two result lists and the files
written so far. -/
structure BatchState where
  processed : List ProcessingResult
  failed : List ProcessingResult
  written : List (List Char × List Char)
  deriving Repr, DecidableEq

/-- Processing of one job by the Batch Driver: an unreadable file becomes a
failure record (the caught exception), a readable one is processed by
`process_file` and its output is written under the normalized name. -/
def processJob (st : BatchState) (j : Job) : BatchState :=
  match j.content with
  | none =>
    { st with failed := st.failed ++ [process_file_err j.stem "read error".data] }
  | some content =>
    let rc := process_file_ok content j.stem j.category
    { st with
      processed := st.processed ++ [rc.1]
      written := fsUpdate rc.1.wiki_file rc.2 st.written }

/-- The Batch Driver: process every job in order, starting from empty
accumulators, as the directory walk of `main` does. -/
def runBatch (jobs : List Job) : BatchState :=
  jobs.foldl processJob ⟨[], [], []⟩

/-- The category `main` reads back for one successful result while building
the index: look the written file up in the output directory and parse its
category header; "Unknown" when the file cannot be read or the regex does not
match. -/
def readBackCategory (written : List (List Char × List Char))
    (r : ProcessingResult) : List Char :=
  match fsLookup r.wiki_file written with
  | some content => index_category_of_page content
  | none => "Unknown".data

/-- Appending a result to its category group, preserving first-seen group
order, as insertion into the `by_category` dictionary does. -/
def groupInsert (k : List Char) (r : ProcessingResult) :
    List (List Char × List ProcessingResult) → List (List Char × List ProcessingResult)
  | [] => [(k, [r])]
  | (k', rs) :: rest =>
    if k' = k then (k', rs ++ [r]) :: rest else (k', rs) :: groupInsert k r rest

/-- The `by_category` grouping of `main`: every successful result is filed
under the category read back from its written page. -/
def groupByCategory (written : List (List Char × List Char))
    (processed : List ProcessingResult) : List (List Char × List ProcessingResult) :=
  processed.foldl (fun acc r => groupInsert (readBackCategory written r) r acc) []

/-- Lexicographic comparison of titles, as Python compares strings when
sorting index entries. -/
def charListLe : List Char → List Char → Bool
  | [], _ => true
  | _ :: _, [] => false
  | a :: as, b :: bs => if a = b then charListLe as bs else decide (a < b)

/-- Insertion into a title-sorted list of results. -/
def insertSorted (r : ProcessingResult) : List ProcessingResult → List ProcessingResult
  | [] => [r]
  | x :: xs =>
    if charListLe r.wiki_title x.wiki_title then r :: x :: xs else x :: insertSorted r xs

/-- Sorting one category group by title for the index. -/
def sortByTitle (rs : List ProcessingResult) : List ProcessingResult :=
  rs.foldl (fun acc r => insertSorted r acc) []

/-- The entries of the generated index page, one title per line, grouped by
read-back category and sorted by title inside each group. -/
def indexEntries (written : List (List Char × List Char))
    (processed : List ProcessingResult) : List (List Char) :=
  ((groupByCategory written processed).map fun p => (sortByTitle p.2).map (·.wiki_title)).flatten

/-- A structured body: plain text between inline links.  `render` produces the
markdown string. -/
inductive Seg
  | txt : List Char → Seg
  | link : List Char → List Char → Seg
  deriving Repr, DecidableEq

/-- Rendering of one segment; a link is its text in brackets followed by its
target in parentheses. -/
def renderSeg : Seg → List Char
  | .txt s => s
  | .link t g => '[' :: (t ++ ']' :: '(' :: (g ++ [')']))

/-- Rendering of a structured body. -/
def render (l : List Seg) : List Char := (l.map renderSeg).flatten

/-- A character that is none of the four bracket characters the link regexes
key on. -/
def cleanChar (c : Char) : Bool :=
  !(c = '[' || c = ']' || c = '(' || c = ')')

/-- What a single substitution pass of family 1/2/4/6 does to one link target
whose characters are clean: if the lead-in is a prefix and the remainder is a
nonempty stem followed by ".md", the target becomes `out stem`, otherwise it
is unchanged. -/
def targetOneGroup (lead : List Char) (out : List Char → List Char)
    (g : List Char) : List Char :=
  if lead.isPrefixOf g then
    let rest1 := List.drop lead.length g
    if 4 ≤ rest1.length ∧ List.drop (rest1.length - 3) rest1 = ".md".data then
      out (rest1.take (rest1.length - 3))
    else g
  else g

/-- What a single substitution pass of family 3/5 does to one clean link
target, provided the pass cannot reach beyond the closing parenthesis (the
target either lacks the lead-in or has a slash after it). -/
def targetTwoGroup (lead : List Char) (out : List Char → List Char)
    (g : List Char) : List Char :=
  if lead.isPrefixOf g then
    let rest1 := List.drop lead.length g
    let dirPart := rest1.takeWhile (fun c => c ≠ '/')
    match rest1.dropWhile (fun c => c ≠ '/') with
    | [] => g
    | _ :: rest2 =>
      if dirPart = [] then g
      else if 4 ≤ rest2.length ∧ List.drop (rest2.length - 3) rest2 = ".md".data then
        out (rest2.take (rest2.length - 3))
      else g
  else g

/-- The effect of the whole six-pass Link Rewriter on one link target. -/
def rewriteTarget (g : List Char) : List Char :=
  let g1 := targetOneGroup "./".data id g
  let g2 := targetOneGroup "../".data id g1
  let g3 := targetTwoGroup "../".data convert_filename_to_wiki_title g2
  let g4 := targetOneGroup "../../".data id g3
  let g5 := targetTwoGroup "./".data convert_filename_to_wiki_title g4
  targetOneGroup [] convert_filename_to_wiki_title g5

/-- A two-group pass stays inside a link target when the target lacks the
lead-in or names a subdirectory (has a slash after the lead-in). -/
def twoGroupStays (lead g : List Char) : Bool :=
  !(lead.isPrefixOf g) || (List.drop lead.length g).any (fun c => c = '/')

/-- Safety of one link target under the whole pipeline: the two two-group
passes stay inside the target at the stage where they run, and the fully
rewritten target is nonempty. -/
def linkTargetSafe (g : List Char) : Bool :=
  let g1 := targetOneGroup "./".data id g
  let g2 := targetOneGroup "../".data id g1
  let g3 := targetTwoGroup "../".data convert_filename_to_wiki_title g2
  let g4 := targetOneGroup "../../".data id g3
  twoGroupStays "../".data g2 && twoGroupStays "./".data g4 &&
    !(rewriteTarget g).isEmpty

/-- Well-formedness of one segment: text is clean; a link has nonempty clean
text, a nonempty clean target, and a safe target. -/
def segOk : Seg → Bool
  | .txt s => s.all cleanChar
  | .link t g =>
    !t.isEmpty && t.all cleanChar && g.all cleanChar && !g.isEmpty && linkTargetSafe g

/-- Well-formedness of a structured body. -/
def bodyOk (l : List Seg) : Bool := l.all segOk

/-- Number of link segments of a structured body. -/
def numLinks (l : List Seg) : Nat :=
  (l.filter fun s => match s with | .link _ _ => true | .txt _ => false).length

/-- Mapping a transformation over every link target of a structured body. -/
def mapTargets (f : List Char → List Char) (l : List Seg) : List Seg :=
  l.map fun s => match s with | .txt x => .txt x | .link t g => .link t (f g)

/-- Total number of results filed across all category groups. -/
def groupSize (bc : List (List Char × List ProcessingResult)) : Nat :=
  (bc.map fun p => p.2.length).sum

/-- Per-segment cleanliness needed for the link-count scan: text has no open
bracket, link text is nonempty without close brackets, targets are nonempty
without close parens. -/
def segCount : Seg → Bool
  | .txt s => s.all (fun c => c ≠ '[')
  | .link t g =>
    !t.isEmpty && t.all (fun c => c ≠ ']') && !g.isEmpty && g.all (fun c => c ≠ ')')

/-- Cleanliness of a whole body for the link-count scan. -/
def countOk (l : List Seg) : Bool := l.all segCount

/-- Per-segment cleanliness needed for a substitution scan: no close bracket
in text or link text, and targets free of close brackets and close parens. -/
def segScan : Seg → Bool
  | .txt s => s.all (fun c => c ≠ ']')
  | .link t g =>
    t.all (fun c => c ≠ ']') && g.all (fun c => c ≠ ']') && g.all (fun c => c ≠ ')')

/-- Cleanliness of a whole body for a substitution scan. -/
def scanOk (l : List Seg) : Bool := l.all segScan

/-- Per-link safety of the two-group passes at their stage of the pipeline. -/
def staysOk (lead : List Char) (l : List Seg) : Bool :=
  l.all fun s => match s with | .link _ g => twoGroupStays lead g | .txt _ => true

/-! ### Basic lemmas about the embedded string primitives -/

theorem pyReplaceAux_of_not_contains {pat rep : List Char} :
    ∀ (fuel : Nat) (s : List Char), containsSub pat s = false →
      pyReplaceAux pat rep fuel s = s := by
  intro fuel
  induction fuel with
  | zero => intro s _; cases s <;> rfl
  | succ n ih =>
    intro s h
    cases s with
    | nil => rfl
    | cons c cs =>
      rw [containsSub] at h
      simp only [Bool.or_eq_false_iff] at h
      rw [pyReplaceAux, if_neg, ih cs h.2]
      intro hc
      exact Bool.false_ne_true (h.1 ▸ hc.2)

/-- A string with no occurrence of the pattern is unchanged by `pyReplace`. -/
theorem pyReplace_of_not_contains {pat rep s : List Char}
    (h : containsSub pat s = false) : pyReplace pat rep s = s :=
  pyReplaceAux_of_not_contains _ s h

theorem not_mem_pyReplaceAux {a : Char} {pat rep : List Char} (hrep : a ∉ rep) :
    ∀ (fuel : Nat) (s : List Char), a ∉ s → a ∉ pyReplaceAux pat rep fuel s := by
  intro fuel
  induction fuel with
  | zero =>
    intro s hs
    cases s with
    | nil => simp [pyReplaceAux]
    | cons c cs => exact hs
  | succ n ih =>
    intro s hs
    cases s with
    | nil => simp [pyReplaceAux]
    | cons c cs =>
      rw [pyReplaceAux]
      by_cases hcon : pat ≠ [] ∧ pat.isPrefixOf (c :: cs) = true
      · rw [if_pos hcon]
        intro hmem
        rcases List.mem_append.mp hmem with hm | hm
        · exact hrep hm
        · exact ih _ (fun hd => hs (List.drop_subset _ _ hd)) hm
      · rw [if_neg hcon]
        intro hmem
        rcases List.mem_cons.mp hmem with hm | hm
        · exact hs (hm ▸ List.mem_cons_self c cs)
        · exact ih cs (fun hd => hs (List.mem_cons_of_mem c hd)) hm

theorem not_mem_pyReplace {a : Char} {pat rep s : List Char} (hrep : a ∉ rep)
    (hs : a ∉ s) : a ∉ pyReplace pat rep s :=
  not_mem_pyReplaceAux hrep s.length s hs

/-! ### Claim C1 -/

/-- C1, counterexample: the claim says a body containing the link
`[see](./guides/setup.md)` rewrites that link to `[see](Setup)`; on the code
it does not, because the broad current-directory pattern runs first and
captures the directory link. -/
theorem c1_counterexample :
    convert_link_patterns "[see](./guides/setup.md)".data ≠ "[see](Setup)".data := by decide

/-- C1, amended: the actual rewrites of the three literal bodies.  The first
pattern (a current-directory file link) consumes `./guides/setup.md`, giving
the target `guides/setup`; the second pattern (a single-parent file link)
consumes `../../overview.md`, stripping only one parent level and giving
`../overview`; the bare reference `notes.md` is rewritten by the last pattern
to the normalized title `Notes` as the claim states. -/
theorem c1_amended :
    convert_link_patterns "[see](./guides/setup.md)".data = "[see](guides/setup)".data ∧
    convert_link_patterns "[x](../../overview.md)".data = "[x](../overview)".data ∧
    convert_link_patterns "[y](notes.md)".data = "[y](Notes)".data := by
  exact ⟨by decide, by decide, by decide⟩

/-! ### Claim C2, counterexample -/

/-- C2, counterexample: link rewriting can remove a link from the count.  In
the body `[a](.md.md)` the bare-reference pattern rewrites the target `.md.md`
to the empty normalized title, leaving `[a]()`, which the link regex no longer
matches. -/
theorem c2_counterexample :
    ¬ countLinks (convert_link_patterns "[a](.md.md)".data) =
        countLinks "[a](.md.md)".data := by decide

/-! ### Claim C3 -/

/-- C3: the Metadata Wrapper drops interior blank lines, not only leading
ones.  Wrapping the body whose lines are "first", blank, "second" produces
exactly the same page as wrapping "first", "second": the interior blank line
does not appear in the body section, and the rendered body section is
"first", newline, "second". -/
theorem c3_code_bug :
    add_wiki_metadata "first\n\nsecond".data "T".data "Development Guides".data =
      add_wiki_metadata "first\nsecond".data "T".data "Development Guides".data ∧
    add_wiki_metadata "first\n\nsecond".data "T".data "Development Guides".data =
      wikiHeader "T".data "Development Guides".data ++ "first\nsecond".data ++ wikiFooter := by
  exact ⟨by decide, by decide⟩

/-! ### Claim C4 -/

/-- C4, counterexample: for an empty source body the rewritten body has no
links, yet the reported converted count is 1, because the count is taken on
the wrapped page, whose fixed footer contains the Home link. -/
theorem c4_counterexample :
    (process_file_ok [] "x".data "Documentation".data).1.converted_links = 1 ∧
      countLinks (convert_link_patterns []) = 0 := by
  exact ⟨by decide, by decide⟩

/-- C4, amended: the original count is the number of inline links in the raw
source body, but the converted count is the number of inline links in the
fully wrapped page written to disk (after metadata wrapping), not in the body
immediately after link rewriting. -/
theorem c4_amended (content stem category : List Char) :
    (process_file_ok content stem category).1.original_links = countLinks content ∧
      (process_file_ok content stem category).1.converted_links =
        countLinks (add_wiki_metadata (convert_link_patterns content)
          (convert_filename_to_wiki_title stem) category) := by
  refine ⟨rfl, ?_⟩
  simp only [process_file_ok]

/-! ### Claim C6 -/

/-- C6, counterexample: a double-parent link into a subdirectory is not left
unmodified. -/
theorem c6_counterexample :
    convert_link_patterns "[z](../../dir/name.md)".data ≠ "[z](../../dir/name.md)".data := by
  decide

/-- C6, amended: a double-parent link into a subdirectory is captured by the
broad single-parent pattern, whose group may contain slashes; the target
`../../dir/name.md` becomes `../dir/name` (one parent level stripped,
extension removed, no normalization). -/
theorem c6_amended :
    convert_link_patterns "[z](../../dir/name.md)".data = "[z](../dir/name)".data := by decide

/-! ### Claim C7 -/

/-- C7, counterexample: the stem "https" title-cases to "Https", but the
earlier table entry for "Http" rewrites its prefix first, so the result is
"HTTPs", not "HTTPS". -/
theorem c7_counterexample :
    convert_filename_to_wiki_title "https".data ≠ "HTTPS".data := by decide

/-- C7, amended: every acronym-table token except "Https" is restored to its
canonical all-caps form from the corresponding lowercase stem, and
`normalize("api-overview") = "API-Overview"`; the stem "https" instead yields
"HTTPs" because the "Http" replacement precedes the "Https" one in the
table. -/
theorem c7_amended :
    convert_filename_to_wiki_title "api".data = "API".data ∧
    convert_filename_to_wiki_title "kpi".data = "KPI".data ∧
    convert_filename_to_wiki_title "prd".data = "PRD".data ∧
    convert_filename_to_wiki_title "ui".data = "UI".data ∧
    convert_filename_to_wiki_title "ux".data = "UX".data ∧
    convert_filename_to_wiki_title "pwa".data = "PWA".data ∧
    convert_filename_to_wiki_title "sql".data = "SQL".data ∧
    convert_filename_to_wiki_title "html".data = "HTML".data ∧
    convert_filename_to_wiki_title "css".data = "CSS".data ∧
    convert_filename_to_wiki_title "json".data = "JSON".data ∧
    convert_filename_to_wiki_title "http".data = "HTTP".data ∧
    convert_filename_to_wiki_title "aws".data = "AWS".data ∧
    convert_filename_to_wiki_title "gcp".data = "GCP".data ∧
    convert_filename_to_wiki_title "https".data = "HTTPs".data ∧
    convert_filename_to_wiki_title "api-overview".data = "API-Overview".data := by
  exact ⟨by decide, by decide, by decide, by decide, by decide, by decide, by decide,
    by decide, by decide, by decide, by decide, by decide, by decide, by decide, by decide⟩

/-! ### Claim C9, counterexample -/

/-- C10, counterexample: `convert_filename_to_wiki_title` removes ".md"
occurrences in a single non-overlapping pass, which is not the same as
normalizing the input with ".md" occurrences removed: on ".m.mdd" the single
pass leaves a fresh ".md" behind. -/
theorem c10_counterexample :
    convert_filename_to_wiki_title ".m.mdd".data ≠
      convert_filename_to_wiki_title (pyReplace ".md".data [] ".m.mdd".data) := by decide

/-- C10, amended: the normalizer deletes every occurrence of ".md" anywhere in
its input in one leftmost non-overlapping pass before title-casing, so
`normalize(s) = normalize(removeMd(s))` holds whenever the single removal pass
leaves no residual ".md"; interior occurrences are dropped either way. -/
theorem c10_amended (s : List Char)
    (h : containsSub ".md".data (pyReplace ".md".data [] s) = false) :
    convert_filename_to_wiki_title s =
      convert_filename_to_wiki_title (pyReplace ".md".data [] s) := by
  simp only [convert_filename_to_wiki_title]
  rw [pyReplace_of_not_contains h]

/-- C10, witness: the amended statement at the stem "v1.mdx-notes", whose
interior ".md" is silently dropped from the derived title. -/
theorem c10_amended_witness :
    containsSub ".md".data (pyReplace ".md".data [] "v1.mdx-notes".data) = false ∧
      convert_filename_to_wiki_title "v1.mdx-notes".data =
        convert_filename_to_wiki_title (pyReplace ".md".data [] "v1.mdx-notes".data) :=
  ⟨by decide, c10_amended "v1.mdx-notes".data (by decide)⟩

/-! ### Character-level lemmas for the Title Normalizer -/

theorem toNat_ofNat_valid (n : Nat) (h : n.isValidChar) : (Char.ofNat n).toNat = n := by
  simp only [Char.ofNat, h, dite_true, Char.ofNatAux, Char.toNat]
  rfl

theorem isValidChar_of_small {n : Nat} (h : n < 55296) : n.isValidChar := Or.inl h

theorem pyUpper_toNat_of_cased {c : Char} (h : casedA c = true) :
    65 ≤ (pyUpper c).toNat ∧ (pyUpper c).toNat ≤ 90 := by
  simp only [casedA, Bool.or_eq_true, Bool.and_eq_true, decide_eq_true_eq] at h
  unfold pyUpper
  rcases h with h | h
  · rw [if_pos ⟨h.1, h.2⟩, toNat_ofNat_valid _ (isValidChar_of_small (by omega))]
    omega
  · rw [if_neg (by omega)]
    omega

theorem pyLower_toNat_of_cased {c : Char} (h : casedA c = true) :
    97 ≤ (pyLower c).toNat ∧ (pyLower c).toNat ≤ 122 := by
  simp only [casedA, Bool.or_eq_true, Bool.and_eq_true, decide_eq_true_eq] at h
  unfold pyLower
  rcases h with h | h
  · rw [if_neg (by omega)]
    omega
  · rw [if_pos ⟨h.1, h.2⟩, toNat_ofNat_valid _ (isValidChar_of_small (by omega))]
    omega

theorem casedA_of_toNat {c : Char}
    (h : (97 ≤ c.toNat ∧ c.toNat ≤ 122) ∨ (65 ≤ c.toNat ∧ c.toNat ≤ 90)) :
    casedA c = true := by
  simp only [casedA, Bool.or_eq_true, Bool.and_eq_true, decide_eq_true_eq]
  exact h

theorem casedA_pyUpper {c : Char} (h : casedA c = true) : casedA (pyUpper c) = true :=
  casedA_of_toNat (Or.inr (pyUpper_toNat_of_cased h))

theorem casedA_pyLower {c : Char} (h : casedA c = true) : casedA (pyLower c) = true :=
  casedA_of_toNat (Or.inl (pyLower_toNat_of_cased h))

theorem pyUpper_pyUpper (c : Char) : pyUpper (pyUpper c) = pyUpper c := by
  by_cases h : 97 ≤ c.toNat ∧ c.toNat ≤ 122
  · have hv : (c.toNat - 32).isValidChar := isValidChar_of_small (by omega)
    unfold pyUpper
    rw [if_pos h, if_neg]
    rw [toNat_ofNat_valid _ hv]
    omega
  · unfold pyUpper
    rw [if_neg h, if_neg h]

theorem pyLower_pyLower (c : Char) : pyLower (pyLower c) = pyLower c := by
  by_cases h : 65 ≤ c.toNat ∧ c.toNat ≤ 90
  · have hv : (c.toNat + 32).isValidChar := isValidChar_of_small (by omega)
    unfold pyLower
    rw [if_pos h, if_neg]
    rw [toNat_ofNat_valid _ hv]
    omega
  · unfold pyLower
    rw [if_neg h, if_neg h]

theorem eq_of_pyUpper_eq {c a : Char} (ha : ¬(65 ≤ a.toNat ∧ a.toNat ≤ 90))
    (h : pyUpper c = a) : c = a := by
  by_cases hc : 97 ≤ c.toNat ∧ c.toNat ≤ 122
  · exfalso
    apply ha
    rw [← h]
    unfold pyUpper
    rw [if_pos hc, toNat_ofNat_valid _ (isValidChar_of_small (by omega))]
    omega
  · rw [← h]
    unfold pyUpper
    rw [if_neg hc]

theorem eq_of_pyLower_eq {c a : Char} (ha : ¬(97 ≤ a.toNat ∧ a.toNat ≤ 122))
    (h : pyLower c = a) : c = a := by
  by_cases hc : 65 ≤ c.toNat ∧ c.toNat ≤ 90
  · exfalso
    apply ha
    rw [← h]
    unfold pyLower
    rw [if_pos hc, toNat_ofNat_valid _ (isValidChar_of_small (by omega))]
    omega
  · rw [← h]
    unfold pyLower
    rw [if_neg hc]

/-! ### Lemmas about the ASCII title-case loop -/

theorem titleAuxA_not_mem {a : Char} (hu : ¬(65 ≤ a.toNat ∧ a.toNat ≤ 90))
    (hl : ¬(97 ≤ a.toNat ∧ a.toNat ≤ 122)) :
    ∀ (s : List Char) (b : Bool), a ∉ s → a ∉ titleAuxA b s := by
  intro s
  induction s with
  | nil =>
    intro b _ hmem
    simp [titleAuxA] at hmem
  | cons c cs ih =>
    intro b h
    simp only [List.mem_cons, not_or] at h
    rw [titleAuxA]
    by_cases hc : casedA c = true
    · rw [if_pos hc]
      intro hmem
      rcases List.mem_cons.mp hmem with h1 | h2
      · cases b with
        | false => exact h.1 (eq_of_pyUpper_eq hu h1.symm).symm
        | true => exact h.1 (eq_of_pyLower_eq hl h1.symm).symm
      · exact ih true h.2 h2
    · rw [if_neg hc]
      intro hmem
      rcases List.mem_cons.mp hmem with h1 | h2
      · exact h.1 h1
      · exact ih false h.2 h2

theorem titleAuxA_idem : ∀ (s : List Char) (b : Bool),
    titleAuxA b (titleAuxA b s) = titleAuxA b s := by
  intro s
  induction s with
  | nil => intro b; rfl
  | cons c cs ih =>
    intro b
    by_cases hc : casedA c = true
    · rw [titleAuxA, if_pos hc]
      have hd : casedA (if b = true then pyLower c else pyUpper c) = true := by
        cases b
        · simpa using casedA_pyUpper hc
        · simpa using casedA_pyLower hc
      rw [titleAuxA, if_pos hd, ih true]
      congr 1
      cases b
      · simp [pyUpper_pyUpper]
      · simp [pyLower_pyLower]
    · rw [titleAuxA, if_neg hc, titleAuxA, if_neg hc, ih false]

theorem titleAuxA_head_not_m (cs : List Char) :
    List.isPrefixOf ['m'] (titleAuxA false cs) = false := by
  cases cs with
  | nil => rfl
  | cons c cs2 =>
    rw [titleAuxA]
    by_cases hc : casedA c = true
    · rw [if_pos hc]
      have h2 := pyUpper_toNat_of_cased hc
      have hne : ('m' : Char) ≠ pyUpper c := by
        intro he
        rw [← he] at h2
        revert h2
        decide
      simp [List.isPrefixOf, hne]
    · rw [if_neg hc]
      have hne : ('m' : Char) ≠ c := by
        intro he
        exact hc (he ▸ (by decide : casedA 'm' = true))
      simp [List.isPrefixOf, hne]

theorem titleAuxA_no_dm : ∀ (s : List Char) (b : Bool),
    containsSub ['.', 'm'] (titleAuxA b s) = false := by
  intro s
  induction s with
  | nil => intro b; rfl
  | cons c cs ih =>
    intro b
    rw [titleAuxA]
    by_cases hc : casedA c = true
    · rw [if_pos hc]
      rw [containsSub]
      have h2 : ('.' : Char) ≠ (if b = true then pyLower c else pyUpper c) := by
        cases b
        · have := pyUpper_toNat_of_cased hc
          simp only [Bool.false_eq_true, if_false]
          intro he
          rw [← he] at this
          revert this
          decide
        · have := pyLower_toNat_of_cased hc
          simp only [if_true]
          intro he
          rw [← he] at this
          revert this
          decide
      simp [List.isPrefixOf, h2, ih true]
    · rw [if_neg hc, containsSub]
      by_cases hdot : c = '.'
      · subst hdot
        simp [List.isPrefixOf, titleAuxA_head_not_m cs, ih false]
      · have hne : ('.' : Char) ≠ c := fun he => hdot he.symm
        simp [List.isPrefixOf, hne, ih false]

/-! ### Lemmas about pyTitle -/

theorem pyCased_eq_casedA {c : Char} (h : c.toNat ≤ 127) : pyCased c = casedA c := by
  have h4 : (c.toNat == 496) = false := by
    cases hb : c.toNat == 496
    · rfl
    · exact absurd (eq_of_beq hb) (by omega)
  rw [pyCased, h4, Bool.or_false]

theorem casedA_false_bounds {c : Char} (h : casedA c = false) :
    ¬(97 ≤ c.toNat ∧ c.toNat ≤ 122) ∧ ¬(65 ≤ c.toNat ∧ c.toNat ≤ 90) := by
  refine ⟨fun hx => ?_, fun hx => ?_⟩
  · rw [casedA_of_toNat (Or.inl hx)] at h
    exact absurd h (by decide)
  · rw [casedA_of_toNat (Or.inr hx)] at h
    exact absurd h (by decide)

theorem pyTitleChar_ascii {c : Char} (h : c.toNat ≤ 127) :
    pyTitleChar c = [pyUpper c] := by
  by_cases hl : 97 ≤ c.toNat ∧ c.toNat ≤ 122
  · rw [pyTitleChar, if_pos hl]
    unfold pyUpper
    rw [if_pos hl]
  · rw [pyTitleChar, if_neg hl, if_neg (by omega)]
    unfold pyUpper
    rw [if_neg hl]

/-- On ASCII input the faithful title-case loop coincides with its ASCII
specialization. -/
theorem pyTitleAux_eq_titleAuxA :
    ∀ (s : List Char) (b : Bool), asciiOnly s = true →
      pyTitleAux b s = titleAuxA b s := by
  intro s
  induction s with
  | nil => intro b _; rfl
  | cons c cs ih =>
    intro b h
    simp only [asciiOnly, List.all_cons, Bool.and_eq_true, decide_eq_true_eq] at h
    have hcs : asciiOnly cs = true := by
      simp only [asciiOnly]
      exact h.2
    rw [pyTitleAux, titleAuxA, pyCased_eq_casedA h.1]
    by_cases hc : casedA c = true
    · rw [if_pos hc, hc, ih true hcs]
      cases b with
      | false =>
        show pyTitleChar c ++ titleAuxA true cs = pyUpper c :: titleAuxA true cs
        rw [pyTitleChar_ascii h.1]
        rfl
      | true =>
        show pyLowerChar c ++ titleAuxA true cs = pyLower c :: titleAuxA true cs
        rfl
    · have hcf : casedA c = false := by
        cases hcb : casedA c
        · rfl
        · exact absurd hcb hc
      have hb := casedA_false_bounds hcf
      have hup : pyUpper c = c := by
        unfold pyUpper
        rw [if_neg hb.1]
      have hlo : pyLower c = c := by
        unfold pyLower
        rw [if_neg hb.2]
      rw [if_neg hc, hcf, ih false hcs]
      cases b with
      | false =>
        show pyTitleChar c ++ titleAuxA false cs = c :: titleAuxA false cs
        rw [pyTitleChar_ascii h.1, hup]
        rfl
      | true =>
        show pyLowerChar c ++ titleAuxA false cs = c :: titleAuxA false cs
        simp only [pyLowerChar, hlo]
        rfl

theorem pyUpper_ascii {c : Char} (h : c.toNat ≤ 127) : (pyUpper c).toNat ≤ 127 := by
  unfold pyUpper
  by_cases hx : 97 ≤ c.toNat ∧ c.toNat ≤ 122
  · rw [if_pos hx, toNat_ofNat_valid _ (isValidChar_of_small (by omega))]
    omega
  · rw [if_neg hx]
    exact h

theorem pyLower_ascii {c : Char} (h : c.toNat ≤ 127) : (pyLower c).toNat ≤ 127 := by
  unfold pyLower
  by_cases hx : 65 ≤ c.toNat ∧ c.toNat ≤ 90
  · rw [if_pos hx, toNat_ofNat_valid _ (isValidChar_of_small (by omega))]
    omega
  · rw [if_neg hx]
    exact h

theorem asciiOnly_titleAuxA :
    ∀ (s : List Char) (b : Bool), asciiOnly s = true →
      asciiOnly (titleAuxA b s) = true := by
  intro s
  induction s with
  | nil => intro b _; rfl
  | cons c cs ih =>
    intro b h
    simp only [asciiOnly, List.all_cons, Bool.and_eq_true, decide_eq_true_eq] at h
    have hcs : asciiOnly cs = true := by
      simp only [asciiOnly]
      exact h.2
    rw [titleAuxA]
    by_cases hc : casedA c = true
    · rw [if_pos hc]
      simp only [asciiOnly, List.all_cons, Bool.and_eq_true, decide_eq_true_eq]
      constructor
      · cases b with
        | false =>
          show (pyUpper c).toNat ≤ 127
          exact pyUpper_ascii h.1
        | true =>
          show (pyLower c).toNat ≤ 127
          exact pyLower_ascii h.1
      · have := ih true hcs
        simpa only [asciiOnly] using this
    · rw [if_neg hc]
      simp only [asciiOnly, List.all_cons, Bool.and_eq_true, decide_eq_true_eq]
      refine ⟨h.1, ?_⟩
      have := ih false hcs
      simpa only [asciiOnly] using this

theorem asciiOnly_pyReplace {pat rep s : List Char} (hrep : asciiOnly rep = true)
    (hs : asciiOnly s = true) : asciiOnly (pyReplace pat rep s) = true := by
  simp only [asciiOnly, List.all_eq_true, decide_eq_true_eq] at hrep hs ⊢
  intro a ha
  by_contra hna
  have h1 : a ∉ rep := fun hm => hna (hrep a hm)
  have h2 : a ∉ s := fun hm => hna (hs a hm)
  exact not_mem_pyReplace h1 h2 ha

theorem not_mem_pyLowerChar {a c : Char} (hl : ¬(97 ≤ a.toNat ∧ a.toNat ≤ 122))
    (hac : a ≠ c) : a ∉ pyLowerChar c := by
  intro hmem
  simp only [pyLowerChar, List.mem_singleton] at hmem
  exact hac (eq_of_pyLower_eq hl hmem.symm).symm

theorem not_mem_pyTitleChar {a c : Char} (hu : ¬(65 ≤ a.toNat ∧ a.toNat ≤ 90))
    (hcc : a.toNat ≠ 780) (hac : a ≠ c) : a ∉ pyTitleChar c := by
  rw [pyTitleChar]
  by_cases h1 : 97 ≤ c.toNat ∧ c.toNat ≤ 122
  · rw [if_pos h1]
    intro hmem
    simp only [List.mem_singleton] at hmem
    apply hu
    rw [hmem, toNat_ofNat_valid _ (isValidChar_of_small (by omega))]
    omega
  · rw [if_neg h1]
    by_cases h2 : c.toNat = 496
    · rw [if_pos h2]
      intro hmem
      rcases List.mem_cons.mp hmem with h3 | h3
      · apply hu
        rw [h3]
        decide
      · simp only [List.mem_singleton] at h3
        apply hcc
        rw [h3, toNat_ofNat_valid _ (isValidChar_of_small (by omega))]
    · rw [if_neg h2]
      intro hmem
      simp only [List.mem_singleton] at hmem
      exact hac hmem

/-- The title-case loop introduces no character that is not an ASCII letter
and not the combining caron of the U+01F0 expansion, beyond those already
present. -/
theorem pyTitleAux_not_mem {a : Char} (hu : ¬(65 ≤ a.toNat ∧ a.toNat ≤ 90))
    (hl : ¬(97 ≤ a.toNat ∧ a.toNat ≤ 122)) (hcc : a.toNat ≠ 780) :
    ∀ (s : List Char) (b : Bool), a ∉ s → a ∉ pyTitleAux b s := by
  intro s
  induction s with
  | nil =>
    intro b _ hmem
    simp [pyTitleAux] at hmem
  | cons c cs ih =>
    intro b h
    simp only [List.mem_cons, not_or] at h
    rw [pyTitleAux]
    intro hmem
    rcases List.mem_append.mp hmem with h1 | h2
    · cases b with
      | false => exact not_mem_pyTitleChar hu hcc h.1 h1
      | true => exact not_mem_pyLowerChar hl h.1 h1
    · exact ih (pyCased c) h.2 h2

theorem isPrefixOf_append_sub : ∀ {p q l : List Char},
    (p ++ q).isPrefixOf l = true → p.isPrefixOf l = true := by
  intro p
  induction p with
  | nil =>
    intro q l _
    cases l <;> rfl
  | cons a as ih =>
    intro q l h
    cases l with
    | nil => simp [List.isPrefixOf] at h
    | cons b bs =>
      simp only [List.cons_append, List.isPrefixOf, Bool.and_eq_true] at h ⊢
      exact ⟨h.1, ih h.2⟩

theorem containsSub_append_sub {p q : List Char} :
    ∀ (l : List Char), containsSub (p ++ q) l = true → containsSub p l = true := by
  intro l
  induction l with
  | nil =>
    intro h
    simp only [containsSub, List.isEmpty_eq_true, List.append_eq_nil] at h ⊢
    exact h.1
  | cons c cs ih =>
    intro h
    rw [containsSub] at h ⊢
    rcases Bool.or_eq_true_iff.mp h with h1 | h2
    · exact Bool.or_eq_true_iff.mpr (Or.inl (isPrefixOf_append_sub h1))
    · exact Bool.or_eq_true_iff.mpr (Or.inr (ih h2))

theorem containsSub_append_of_not {p q l : List Char}
    (h : containsSub p l = false) : containsSub (p ++ q) l = false := by
  cases hcon : containsSub (p ++ q) l
  · rfl
  · exact absurd (containsSub_append_sub l hcon) (by simp [h])

theorem pyReplaceAux_single (a b : Char) : ∀ (fuel : Nat) (s : List Char), s.length ≤ fuel →
    pyReplaceAux [a] [b] fuel s = s.map (fun c => if c = a then b else c) := by
  intro fuel
  induction fuel with
  | zero =>
    intro s h
    cases s with
    | nil => rfl
    | cons c cs => simp at h
  | succ n ih =>
    intro s h
    cases s with
    | nil => rfl
    | cons c cs =>
      rw [pyReplaceAux]
      by_cases hc : c = a
      · rw [if_pos ⟨by simp, by simp [List.isPrefixOf, hc]⟩]
        have hlen : cs.length ≤ n := by
          simp only [List.length_cons] at h
          omega
        simp [hc, ih cs hlen]
      · rw [if_neg]
        · have hlen : cs.length ≤ n := by
            simp only [List.length_cons] at h
            omega
          rw [ih cs hlen]
          simp [hc]
        · intro hcon
          have h2 := hcon.2
          simp [List.isPrefixOf] at h2
          exact hc h2.symm

theorem pyReplace_single (a b : Char) (s : List Char) :
    pyReplace [a] [b] s = s.map (fun c => if c = a then b else c) :=
  pyReplaceAux_single a b s.length s le_rfl

theorem dash_not_mem_space_replace (s : List Char) : '-' ∉ pyReplace ['-'] [' '] s := by
  rw [pyReplace_single]
  intro hmem
  rcases List.mem_map.mp hmem with ⟨c, _, hc⟩
  by_cases h : c = '-'
  · rw [if_pos h] at hc
    exact absurd hc (by decide)
  · rw [if_neg h] at hc
    exact h hc

theorem replace_dash_id {v : List Char} (h : '-' ∉ v) : pyReplace ['-'] [' '] v = v := by
  rw [pyReplace_single]
  conv_rhs => rw [← List.map_id v]
  apply List.map_congr_left
  intro c hcv
  have hcd : c ≠ '-' := fun he => h (he ▸ hcv)
  rw [if_neg hcd]
  rfl

theorem replace_space_dash_roundtrip {v : List Char} (h : '-' ∉ v) :
    pyReplace ['-'] [' '] (pyReplace [' '] ['-'] v) = v := by
  rw [pyReplace_single, pyReplace_single, List.map_map]
  conv_rhs => rw [← List.map_id v]
  apply List.map_congr_left
  intro c hcv
  have hcd : c ≠ '-' := fun he => h (he ▸ hcv)
  by_cases hsp : c = ' '
  · simp [Function.comp, hsp]
  · simp [Function.comp, hsp, hcd]

theorem foldl_replace_inert : ∀ (table : List (List Char × List Char)) (t : List Char),
    (∀ pr ∈ table, containsSub pr.1 t = false) →
    table.foldl (fun acc pr => pyReplace pr.1 pr.2 acc) t = t := by
  intro table
  induction table with
  | nil => intro t _; rfl
  | cons hd tl ih =>
    intro t h
    rw [List.foldl_cons, pyReplace_of_not_contains (h hd (by simp))]
    exact ih t (fun pr hpr => h pr (by simp [hpr]))

/-- On a stem with no ".md" occurrence and no acronym-table token in its
title-cased form, the Title Normalizer is just the hyphen/title-case/hyphen
step. -/
theorem normalize_eq_hyphenTitle {s : List Char}
    (h1 : containsSub ".md".data s = false)
    (h2 : (title_mapping.all fun pr => !(containsSub pr.1 (hyphenTitle s))) = true) :
    convert_filename_to_wiki_title s = hyphenTitle s := by
  simp only [convert_filename_to_wiki_title]
  rw [pyReplace_of_not_contains h1]
  apply foldl_replace_inert
  intro pr hpr
  have := List.all_eq_true.mp h2 pr hpr
  simpa using this

/-! ### Claim C8 -/

/-- C8, counterexample: the round-trip idempotence claimed for every stem with
no acronym-table token and no ".md" substring fails on the stem consisting of
U+01F0 followed by a lowercase x.  Title-casing expands U+01F0 to U+004A
followed by the combining caron U+030C; the combining mark is not cased, so
the second title pass, applied to the normalized title during the round-trip,
uppercases the x that follows it, and the two sides differ. -/
theorem c8_counterexample :
    containsSub ".md".data [Char.ofNat 496, 'x'] = false ∧
      (title_mapping.all fun pr =>
        !(containsSub pr.1 (hyphenTitle [Char.ofNat 496, 'x']))) = true ∧
      convert_filename_to_wiki_title
          (pyReplace ['-'] [' '] (convert_filename_to_wiki_title [Char.ofNat 496, 'x'])) ≠
        convert_filename_to_wiki_title [Char.ofNat 496, 'x'] := by
  exact ⟨by decide, by decide, by decide⟩

/-- C8, amended: for every stem of ASCII characters with no ".md" substring
and no acronym-table token occurring in its title-cased form, the Title
Normalizer is idempotent under the hyphen/space round-trip:
`normalize(normalize(s).replace(hyphen, space)) = normalize(s)`.  On ASCII
input every title mapping is a single character and every mapped character is
cased again, so the second title pass fixes the first; outside ASCII the
counterexample above shows the property fails. -/
theorem c8_amended (s : List Char)
    (h0 : asciiOnly s = true)
    (h1 : containsSub ".md".data s = false)
    (h2 : (title_mapping.all fun pr => !(containsSub pr.1 (hyphenTitle s))) = true) :
    convert_filename_to_wiki_title
        (pyReplace ['-'] [' '] (convert_filename_to_wiki_title s)) =
      convert_filename_to_wiki_title s := by
  rw [normalize_eq_hyphenTitle h1 h2]
  have ha1 : asciiOnly (pyReplace ['-'] [' '] s) = true :=
    asciiOnly_pyReplace (by decide) h0
  have htr : pyTitle (pyReplace ['-'] [' '] s) =
      titleAuxA false (pyReplace ['-'] [' '] s) :=
    pyTitleAux_eq_titleAuxA _ false ha1
  have hvd : '-' ∉ pyTitle (pyReplace ['-'] [' '] s) := by
    rw [htr]
    exact titleAuxA_not_mem (by decide) (by decide) _ false (dash_not_mem_space_replace s)
  have hrt : pyReplace ['-'] [' '] (hyphenTitle s) = pyTitle (pyReplace ['-'] [' '] s) :=
    replace_space_dash_roundtrip hvd
  rw [hrt]
  have hmd : containsSub ".md".data (pyTitle (pyReplace ['-'] [' '] s)) = false := by
    rw [htr]
    have hdm := titleAuxA_no_dm (pyReplace ['-'] [' '] s) false
    have he : (['.', 'm'] ++ ['d'] : List Char) = ".md".data := by decide
    rw [← he]
    exact containsSub_append_of_not hdm
  simp only [convert_filename_to_wiki_title]
  rw [pyReplace_of_not_contains hmd]
  have hh : hyphenTitle (pyTitle (pyReplace ['-'] [' '] s)) = hyphenTitle s := by
    show pyReplace [' '] ['-']
        (pyTitle (pyReplace ['-'] [' '] (pyTitle (pyReplace ['-'] [' '] s)))) =
      pyReplace [' '] ['-'] (pyTitle (pyReplace ['-'] [' '] s))
    rw [replace_dash_id hvd]
    have ha2 : asciiOnly (titleAuxA false (pyReplace ['-'] [' '] s)) = true :=
      asciiOnly_titleAuxA _ false ha1
    rw [htr, pyTitle, pyTitleAux_eq_titleAuxA _ false ha2, titleAuxA_idem]
  rw [hh]
  apply foldl_replace_inert
  intro pr hpr
  have := List.all_eq_true.mp h2 pr hpr
  simpa using this

/-- C8, witness: the amended round-trip identity at the literal stem of the
spec, "business-plan", an ASCII stem whose title-cased form "Business-Plan"
contains no acronym-table token. -/
theorem c8_amended_witness :
    asciiOnly "business-plan".data = true ∧
      containsSub ".md".data "business-plan".data = false ∧
      (title_mapping.all fun pr =>
        !(containsSub pr.1 (hyphenTitle "business-plan".data))) = true ∧
      convert_filename_to_wiki_title
          (pyReplace ['-'] [' '] (convert_filename_to_wiki_title "business-plan".data)) =
        convert_filename_to_wiki_title "business-plan".data :=
  ⟨by decide, by decide, by decide,
    c8_amended "business-plan".data (by decide) (by decide) (by decide)⟩

/-! ### Scanning helper lemmas -/

theorem takeWhile_append_all {p : Char → Bool} :
    ∀ {a : List Char} (b : List Char), (∀ c ∈ a, p c = true) →
      List.takeWhile p (a ++ b) = a ++ List.takeWhile p b := by
  intro a
  induction a with
  | nil => intro b _; rfl
  | cons x xs ih =>
    intro b h
    rw [List.cons_append, List.takeWhile_cons, if_pos (h x (by simp)), List.cons_append,
      ih b (fun c hc => h c (by simp [hc]))]

theorem dropWhile_append_all {p : Char → Bool} :
    ∀ {a : List Char} (b : List Char), (∀ c ∈ a, p c = true) →
      List.dropWhile p (a ++ b) = List.dropWhile p b := by
  intro a
  induction a with
  | nil => intro b _; rfl
  | cons x xs ih =>
    intro b h
    rw [List.cons_append, List.dropWhile_cons, if_pos (h x (by simp))]
    exact ih b (fun c hc => h c (by simp [hc]))

theorem groupInsert_size (k : List Char) (r : ProcessingResult) :
    ∀ bc, groupSize (groupInsert k r bc) = groupSize bc + 1 := by
  intro bc
  induction bc with
  | nil => simp [groupInsert, groupSize]
  | cons hd tl ih =>
    obtain ⟨k1, rs⟩ := hd
    rw [groupInsert]
    by_cases h : k1 = k
    · rw [if_pos h]
      simp only [groupSize, List.map_cons, List.sum_cons, List.length_append,
        List.length_singleton]
      omega
    · rw [if_neg h]
      simp only [groupSize, List.map_cons, List.sum_cons] at ih ⊢
      omega

theorem groupFold_size (written : List (List Char × List Char)) :
    ∀ (processed : List ProcessingResult) (acc : List (List Char × List ProcessingResult)),
      groupSize (processed.foldl
          (fun acc r => groupInsert (readBackCategory written r) r acc) acc) =
        groupSize acc + processed.length := by
  intro processed
  induction processed with
  | nil => intro acc; simp
  | cons r rs ih =>
    intro acc
    rw [List.foldl_cons, ih (groupInsert (readBackCategory written r) r acc),
      groupInsert_size]
    simp only [List.length_cons]
    omega

theorem insertSorted_length (r : ProcessingResult) :
    ∀ l, (insertSorted r l).length = l.length + 1 := by
  intro l
  induction l with
  | nil => rfl
  | cons x xs ih =>
    rw [insertSorted]
    by_cases h : charListLe r.wiki_title x.wiki_title = true
    · rw [if_pos h]
      simp
    · rw [if_neg h]
      simp only [List.length_cons, ih]

theorem sortByTitle_length (rs : List ProcessingResult) :
    (sortByTitle rs).length = rs.length := by
  have haux : ∀ (l : List ProcessingResult) (acc : List ProcessingResult),
      (l.foldl (fun acc r => insertSorted r acc) acc).length = acc.length + l.length := by
    intro l
    induction l with
    | nil => intro acc; simp
    | cons x xs ih =>
      intro acc
      rw [List.foldl_cons, ih (insertSorted x acc), insertSorted_length]
      simp only [List.length_cons]
      omega
  simpa using haux rs []

/-- The index lists exactly one entry per successful result. -/
theorem indexEntries_length (written : List (List Char × List Char))
    (processed : List ProcessingResult) :
    (indexEntries written processed).length = processed.length := by
  simp only [indexEntries, List.length_flatten, List.map_map]
  have hmap : (List.map (List.length ∘ fun p => (sortByTitle p.2).map (·.wiki_title))
      (groupByCategory written processed)) =
      (groupByCategory written processed).map fun p => p.2.length := by
    apply List.map_congr_left
    intro p _
    simp [sortByTitle_length]
  rw [hmap]
  have := groupFold_size written processed []
  simpa [groupByCategory, groupSize] using this

theorem runBatch_counts : ∀ (jobs : List Job) (st : BatchState),
    ((jobs.foldl processJob st).processed).length =
        st.processed.length + (jobs.filter (fun j => j.content.isSome)).length ∧
      ((jobs.foldl processJob st).failed).length =
        st.failed.length + (jobs.filter (fun j => j.content.isNone)).length := by
  intro jobs
  induction jobs with
  | nil => intro st; simp
  | cons j js ih =>
    intro st
    rw [List.foldl_cons]
    cases hc : j.content with
    | none =>
      have hstep : processJob st j =
          { st with failed := st.failed ++ [process_file_err j.stem "read error".data] } := by
        simp [processJob, hc]
      rw [hstep]
      rcases ih { st with failed := st.failed ++ [process_file_err j.stem "read error".data] }
        with ⟨hp, hf⟩
      constructor
      · rw [hp]
        simp [List.filter_cons, hc]
      · rw [hf]
        simp [List.filter_cons, hc]
        omega
    | some c =>
      have hstep : processJob st j =
          { st with
            processed := st.processed ++ [(process_file_ok c j.stem j.category).1]
            written := fsUpdate (process_file_ok c j.stem j.category).1.wiki_file
              (process_file_ok c j.stem j.category).2 st.written } := by
        simp [processJob, hc]
      rw [hstep]
      rcases ih { st with
        processed := st.processed ++ [(process_file_ok c j.stem j.category).1]
        written := fsUpdate (process_file_ok c j.stem j.category).1.wiki_file
          (process_file_ok c j.stem j.category).2 st.written } with ⟨hp, hf⟩
      constructor
      · rw [hp]
        simp [List.filter_cons, hc]
        omega
      · rw [hf]
        simp [List.filter_cons, hc]

theorem runBatch_failed_flag : ∀ (jobs : List Job) (st : BatchState),
    (∀ r ∈ st.failed, r.success = false) →
    ∀ r ∈ (jobs.foldl processJob st).failed, r.success = false := by
  intro jobs
  induction jobs with
  | nil => intro st h; exact h
  | cons j js ih =>
    intro st h
    rw [List.foldl_cons]
    apply ih
    intro r hr
    cases hc : j.content with
    | none =>
      have hstep : processJob st j =
          { st with failed := st.failed ++ [process_file_err j.stem "read error".data] } := by
        simp [processJob, hc]
      rw [hstep] at hr
      simp only [List.mem_append, List.mem_singleton] at hr
      rcases hr with hr | hr
      · exact h r hr
      · rw [hr]
        rfl
    | some c =>
      have hstep : processJob st j =
          { st with
            processed := st.processed ++ [(process_file_ok c j.stem j.category).1]
            written := fsUpdate (process_file_ok c j.stem j.category).1.wiki_file
              (process_file_ok c j.stem j.category).2 st.written } := by
        simp [processJob, hc]
      rw [hstep] at hr
      exact h r hr

/-! ### Claim C5 -/

/-- C5: a batch with exactly one unreadable source file and N readable ones
produces exactly one failure record and N success records, the generated
index contains exactly N entries, and every failure is captured as a
per-file result with `success = false` (processing of the batch continues
past the bad file). -/
theorem c5_one_unreadable (jobs : List Job) (n : Nat)
    (h1 : (jobs.filter (fun j => j.content.isNone)).length = 1)
    (h2 : (jobs.filter (fun j => j.content.isSome)).length = n) :
    (runBatch jobs).failed.length = 1 ∧
      (runBatch jobs).processed.length = n ∧
      (indexEntries (runBatch jobs).written (runBatch jobs).processed).length = n ∧
      ∀ r ∈ (runBatch jobs).failed, r.success = false := by
  rcases runBatch_counts jobs ⟨[], [], []⟩ with ⟨hp, hf⟩
  refine ⟨?_, ?_, ?_, ?_⟩
  · rw [runBatch, hf, h1]
    simp
  · rw [runBatch, hp, h2]
    simp
  · rw [indexEntries_length, runBatch, hp, h2]
    simp
  · exact runBatch_failed_flag jobs ⟨[], [], []⟩ (by intro r hr; simp at hr)

/-- C5, witness: a concrete batch of three files, the second unreadable,
processed under two categories. -/
theorem c5_one_unreadable_witness :
    ((([⟨"guide-a".data, some "# A\nhello [x](notes.md)".data, "Development Guides".data⟩,
        ⟨"broken".data, none, "Development Guides".data⟩,
        ⟨"plan-b".data, some "text".data, "Business Documentation".data⟩] : List Job).filter
          (fun j => j.content.isNone)).length = 1) ∧
      ((([⟨"guide-a".data, some "# A\nhello [x](notes.md)".data, "Development Guides".data⟩,
          ⟨"broken".data, none, "Development Guides".data⟩,
          ⟨"plan-b".data, some "text".data, "Business Documentation".data⟩] : List Job).filter
            (fun j => j.content.isSome)).length = 2) ∧
      (runBatch [⟨"guide-a".data, some "# A\nhello [x](notes.md)".data, "Development Guides".data⟩,
        ⟨"broken".data, none, "Development Guides".data⟩,
        ⟨"plan-b".data, some "text".data, "Business Documentation".data⟩]).failed.length = 1 ∧
      (runBatch [⟨"guide-a".data, some "# A\nhello [x](notes.md)".data, "Development Guides".data⟩,
        ⟨"broken".data, none, "Development Guides".data⟩,
        ⟨"plan-b".data, some "text".data, "Business Documentation".data⟩]).processed.length = 2 ∧
      (indexEntries
          (runBatch [⟨"guide-a".data, some "# A\nhello [x](notes.md)".data, "Development Guides".data⟩,
            ⟨"broken".data, none, "Development Guides".data⟩,
            ⟨"plan-b".data, some "text".data, "Business Documentation".data⟩]).written
          (runBatch [⟨"guide-a".data, some "# A\nhello [x](notes.md)".data, "Development Guides".data⟩,
            ⟨"broken".data, none, "Development Guides".data⟩,
            ⟨"plan-b".data, some "text".data, "Business Documentation".data⟩]).processed).length = 2 := by
  have hmain := c5_one_unreadable
    [⟨"guide-a".data, some "# A\nhello [x](notes.md)".data, "Development Guides".data⟩,
      ⟨"broken".data, none, "Development Guides".data⟩,
      ⟨"plan-b".data, some "text".data, "Business Documentation".data⟩] 2 (by decide) (by decide)
  exact ⟨by decide, by decide, hmain.1, hmain.2.1, hmain.2.2.1⟩

/-! ### Rendering lemmas for structured bodies -/

theorem render_cons (s : Seg) (rest : List Seg) :
    render (s :: rest) = renderSeg s ++ render rest := by
  simp [render]

theorem takeWhile_ne_append {a : Char} (t Z : List Char) (h : ∀ c ∈ t, c ≠ a) :
    List.takeWhile (fun x => x ≠ a) (t ++ a :: Z) = t := by
  rw [takeWhile_append_all (a :: Z) (fun c hc => by simpa using h c hc)]
  rw [List.takeWhile_cons, if_neg (by simp)]
  simp

theorem dropWhile_ne_append {a : Char} (t Z : List Char) (h : ∀ c ∈ t, c ≠ a) :
    List.dropWhile (fun x => x ≠ a) (t ++ a :: Z) = a :: Z := by
  rw [dropWhile_append_all (a :: Z) (fun c hc => by simpa using h c hc)]
  rw [List.dropWhile_cons, if_neg (by simp)]

theorem countLinksAux_append_clean :
    ∀ (txt : List Char) (fuel : Nat) (R : List Char), (∀ c ∈ txt, c ≠ '[') →
      txt.length + R.length ≤ fuel →
      countLinksAux fuel (txt ++ R) = countLinksAux (fuel - txt.length) R := by
  intro txt
  induction txt with
  | nil => intro fuel R _ _; simp
  | cons c cs ih =>
    intro fuel R h hlen
    cases fuel with
    | zero => simp at hlen
    | succ n =>
      rw [List.cons_append, countLinksAux, if_neg (h c (by simp))]
      rw [ih n R (fun x hx => h x (by simp [hx])) (by
        simp only [List.length_cons] at hlen
        omega)]
      congr 1
      simp only [List.length_cons]
      omega

theorem ne_nil_of_isEmpty_eq_false {l : List Char} (h : l.isEmpty = false) : l ≠ [] := by
  cases l
  · simp at h
  · simp

theorem linkSpan_link (t g R : List Char) (htne : t ≠ []) (htcl : ∀ c ∈ t, c ≠ ']')
    (hgne : g ≠ []) (hgcl : ∀ c ∈ g, c ≠ ')') :
    linkSpan (t ++ ']' :: '(' :: (g ++ ')' :: R)) = some R := by
  rw [linkSpan]
  rw [takeWhile_ne_append t ('(' :: (g ++ ')' :: R)) htcl]
  rw [dropWhile_ne_append t ('(' :: (g ++ ')' :: R)) htcl]
  rw [if_neg htne]
  dsimp only
  rw [if_pos rfl]
  rw [takeWhile_ne_append g R hgcl]
  rw [dropWhile_ne_append g R hgcl]
  rw [if_neg hgne]

theorem countLinksAux_render :
    ∀ (l : List Seg) (fuel : Nat), countOk l = true → (render l).length ≤ fuel →
      countLinksAux fuel (render l) = numLinks l := by
  intro l
  induction l with
  | nil =>
    intro fuel _ _
    cases fuel <;> rfl
  | cons s rest ih =>
    intro fuel hok hlen
    have hoks : segCount s = true := by
      have := List.all_eq_true.mp hok s (by simp)
      exact this
    have hokr : countOk rest = true := by
      apply List.all_eq_true.mpr
      intro x hx
      exact List.all_eq_true.mp hok x (by simp [hx])
    cases s with
    | txt x =>
      have hx : ∀ c ∈ x, c ≠ '[' := by
        intro c hc
        have := List.all_eq_true.mp hoks c hc
        simpa using this
      rw [render_cons] at hlen ⊢
      have hlen2 : x.length + (render rest).length ≤ fuel := by
        simpa [List.length_append] using hlen
      rw [show renderSeg (Seg.txt x) = x from rfl]
      rw [countLinksAux_append_clean x fuel (render rest) hx hlen2]
      rw [ih (fuel - x.length) hokr (by omega)]
      simp [numLinks]
    | link t g =>
      simp only [segCount, Bool.and_eq_true, Bool.not_eq_true'] at hoks
      obtain ⟨⟨⟨htne, htcl⟩, hgne⟩, hgcl⟩ := hoks
      have htne2 : t ≠ [] := ne_nil_of_isEmpty_eq_false htne
      have hgne2 : g ≠ [] := ne_nil_of_isEmpty_eq_false hgne
      have htcl2 : ∀ c ∈ t, c ≠ ']' := by
        intro c hc
        have := List.all_eq_true.mp htcl c hc
        simpa using this
      have hgcl2 : ∀ c ∈ g, c ≠ ')' := by
        intro c hc
        have := List.all_eq_true.mp hgcl c hc
        simpa using this
      rw [render_cons] at hlen ⊢
      cases fuel with
      | zero =>
        exfalso
        simp [renderSeg] at hlen
      | succ n =>
        rw [show renderSeg (Seg.link t g) ++ render rest =
          '[' :: (t ++ ']' :: '(' :: (g ++ ')' :: render rest)) from by
            simp [renderSeg, List.append_assoc]]
        rw [countLinksAux, if_pos rfl]
        rw [linkSpan_link t g (render rest) htne2 htcl2 hgne2 hgcl2]
        dsimp only
        rw [ih n hokr (by
          simp only [renderSeg, List.length_append, List.length_cons] at hlen
          omega)]
        simp [numLinks]
        omega

theorem subPass_append_clean (m : List Char → Option (List Char × List Char))
    (out : List Char → List Char) :
    ∀ (txt : List Char) (fuel : Nat) (R : List Char), (∀ c ∈ txt, c ≠ ']') →
      txt.length + R.length ≤ fuel →
      subPass m out fuel (txt ++ R) = txt ++ subPass m out (fuel - txt.length) R := by
  intro txt
  induction txt with
  | nil => intro fuel R _ _; simp
  | cons c cs ih =>
    intro fuel R h hlen
    cases fuel with
    | zero => simp at hlen
    | succ n =>
      rw [List.cons_append, subPass.eq_def]
      dsimp only
      rw [if_neg (h c (by simp))]
      rw [ih n R (fun x hx => h x (by simp [hx])) (by
        simp only [List.length_cons] at hlen
        omega)]
      have hfe : n + 1 - (c :: cs).length = n - cs.length := by
        simp only [List.length_cons]
        omega
      rw [hfe, List.cons_append]

theorem isPrefixOf_close_boundary :
    ∀ (lead g R : List Char), (∀ c ∈ lead, c ≠ ')') → (∀ c ∈ g, c ≠ ')') →
      lead.isPrefixOf (g ++ ')' :: R) = lead.isPrefixOf g := by
  intro lead
  induction lead with
  | nil => intro g R _ _; cases g <;> rfl
  | cons a as ih =>
    intro g R hlead hg
    cases g with
    | nil =>
      simp only [List.nil_append, List.isPrefixOf]
      have : (a == ')') = false := by
        have := hlead a (by simp)
        simpa using this
      simp [this]
    | cons b bs =>
      simp only [List.cons_append, List.isPrefixOf, List.append_eq]
      rw [ih bs R (fun c hc => hlead c (by simp [hc])) (fun c hc => hg c (by simp [hc]))]

theorem matchOneGroup_link_some (lead g R : List Char)
    (hlead : ∀ c ∈ lead, c ≠ ')') (hg : ∀ c ∈ g, c ≠ ')')
    (hpf : lead.isPrefixOf g = true)
    (hcond : 4 ≤ (List.drop lead.length g).length ∧
      List.drop ((List.drop lead.length g).length - 3) (List.drop lead.length g) = ".md".data) :
    matchOneGroup lead (g ++ ')' :: R) =
      some ((List.drop lead.length g).take ((List.drop lead.length g).length - 3), R) := by
  have hlen : lead.length ≤ g.length :=
    (List.isPrefixOf_iff_prefix.mp hpf).length_le
  rw [matchOneGroup, if_pos (by rw [isPrefixOf_close_boundary lead g R hlead hg]; exact hpf)]
  dsimp only
  rw [List.drop_append_of_le_length hlen]
  rw [takeWhile_ne_append (List.drop lead.length g) R
    (fun c hc => hg c (List.drop_subset _ _ hc))]
  rw [dropWhile_ne_append (List.drop lead.length g) R
    (fun c hc => hg c (List.drop_subset _ _ hc))]
  dsimp only
  rw [if_pos hcond]

theorem matchOneGroup_link_none (lead g R : List Char)
    (hlead : ∀ c ∈ lead, c ≠ ')') (hg : ∀ c ∈ g, c ≠ ')')
    (hfail : lead.isPrefixOf g = false ∨
      ¬(4 ≤ (List.drop lead.length g).length ∧
        List.drop ((List.drop lead.length g).length - 3) (List.drop lead.length g) =
          ".md".data)) :
    matchOneGroup lead (g ++ ')' :: R) = none := by
  rcases hfail with hf | hf
  · rw [matchOneGroup, if_neg]
    rw [isPrefixOf_close_boundary lead g R hlead hg]
    simp [hf]
  · by_cases hpf : lead.isPrefixOf g = true
    · have hlen : lead.length ≤ g.length :=
        (List.isPrefixOf_iff_prefix.mp hpf).length_le
      rw [matchOneGroup, if_pos (by rw [isPrefixOf_close_boundary lead g R hlead hg]; exact hpf)]
      dsimp only
      rw [List.drop_append_of_le_length hlen]
      rw [takeWhile_ne_append (List.drop lead.length g) R
        (fun c hc => hg c (List.drop_subset _ _ hc))]
      rw [dropWhile_ne_append (List.drop lead.length g) R
        (fun c hc => hg c (List.drop_subset _ _ hc))]
      dsimp only
      rw [if_neg hf]
    · rw [matchOneGroup, if_neg]
      rw [isPrefixOf_close_boundary lead g R hlead hg]
      simpa using hpf

theorem takeWhile_append_stop {p : Char → Bool} :
    ∀ (a b : List Char), List.dropWhile p a ≠ [] →
      List.takeWhile p (a ++ b) = List.takeWhile p a ∧
      List.dropWhile p (a ++ b) = List.dropWhile p a ++ b := by
  intro a
  induction a with
  | nil => intro b h; exact absurd rfl h
  | cons x xs ih =>
    intro b h
    by_cases hx : p x = true
    · rw [List.dropWhile_cons, if_pos hx] at h
      rcases ih b h with ⟨h1, h2⟩
      constructor
      · rw [List.cons_append, List.takeWhile_cons, if_pos hx, h1,
          List.takeWhile_cons, if_pos hx]
      · rw [List.cons_append, List.dropWhile_cons, if_pos hx, h2,
          List.dropWhile_cons, if_pos hx]
    · have hx2 : p x = false := by
        cases hpx : p x
        · rfl
        · exact absurd hpx hx
      constructor
      · rw [List.cons_append, List.takeWhile_cons, if_neg (by simp [hx2]),
          List.takeWhile_cons, if_neg (by simp [hx2])]
      · rw [List.cons_append, List.dropWhile_cons, if_neg (by simp [hx2]),
          List.dropWhile_cons, if_neg (by simp [hx2]), List.cons_append]

theorem dropWhile_head_false {p : Char → Bool} {l : List Char} {y : Char} {e : List Char}
    (h : List.dropWhile p l = y :: e) : p y = false := by
  have hne : List.dropWhile p l ≠ [] := by rw [h]; simp
  have hh := List.head_dropWhile_not p l hne
  revert hne hh
  rw [h]
  intro hne hh
  simpa using hh

/-- Joint behavior of a one-group pass matcher at a clean link target and the
per-target transform it induces: either both fail and the target is kept, or
the matcher consumes exactly the target and the transform records the
rewritten one. -/
theorem matchOneGroup_link_cases (lead g R : List Char)
    (out : List Char → List Char)
    (hlead : ∀ c ∈ lead, c ≠ ')') (hg : ∀ c ∈ g, c ≠ ')') :
    (matchOneGroup lead (g ++ ')' :: R) = none ∧ targetOneGroup lead out g = g) ∨
    (∃ grp, matchOneGroup lead (g ++ ')' :: R) = some (grp, R) ∧
      targetOneGroup lead out g = out grp) := by
  by_cases hpf : lead.isPrefixOf g = true
  · by_cases hcond : 4 ≤ (List.drop lead.length g).length ∧
        List.drop ((List.drop lead.length g).length - 3) (List.drop lead.length g) =
          ".md".data
    · right
      refine ⟨(List.drop lead.length g).take ((List.drop lead.length g).length - 3), ?_, ?_⟩
      · exact matchOneGroup_link_some lead g R hlead hg hpf hcond
      · rw [targetOneGroup, if_pos hpf]
        dsimp only
        rw [if_pos hcond]
    · left
      refine ⟨matchOneGroup_link_none lead g R hlead hg (Or.inr hcond), ?_⟩
      rw [targetOneGroup, if_pos hpf]
      dsimp only
      rw [if_neg hcond]
  · have hpf2 : lead.isPrefixOf g = false := by
      cases hx : lead.isPrefixOf g
      · rfl
      · exact absurd hx hpf
    left
    refine ⟨matchOneGroup_link_none lead g R hlead hg (Or.inl hpf2), ?_⟩
    rw [targetOneGroup, if_neg (by simp [hpf2])]

/-- Joint behavior of a two-group pass matcher at a clean link target that
satisfies the stays-inside condition, and the per-target transform it
induces. -/
theorem matchTwoGroup_link_cases (lead g R : List Char)
    (out : List Char → List Char)
    (hlead : ∀ c ∈ lead, c ≠ ')') (hg : ∀ c ∈ g, c ≠ ')')
    (hstay : twoGroupStays lead g = true) :
    (matchTwoGroup lead (g ++ ')' :: R) = none ∧ targetTwoGroup lead out g = g) ∨
    (∃ grp, matchTwoGroup lead (g ++ ')' :: R) = some (grp, R) ∧
      targetTwoGroup lead out g = out grp) := by
  by_cases hpf : lead.isPrefixOf g = true
  · have hlenle : lead.length ≤ g.length :=
      (List.isPrefixOf_iff_prefix.mp hpf).length_le
    have hslash : ∃ c ∈ List.drop lead.length g, c = '/' := by
      simp only [twoGroupStays, hpf, Bool.not_true, Bool.false_or,
        List.any_eq_true, decide_eq_true_eq] at hstay
      exact hstay
    have hdne : List.dropWhile (fun c => c ≠ '/') (List.drop lead.length g) ≠ [] := by
      intro hnil
      rw [List.dropWhile_eq_nil_iff] at hnil
      rcases hslash with ⟨c, hcm, hce⟩
      have := hnil c hcm
      rw [hce] at this
      simp at this
    obtain ⟨y, e, hye⟩ : ∃ y e,
        List.dropWhile (fun c => c ≠ '/') (List.drop lead.length g) = y :: e := by
      cases hx : List.dropWhile (fun c => c ≠ '/') (List.drop lead.length g) with
      | nil => exact absurd hx hdne
      | cons y e => exact ⟨y, e, rfl⟩
    have he_sub : ∀ c ∈ e, c ≠ ')' := by
      intro c hc
      apply hg
      apply List.drop_subset lead.length
      apply (List.dropWhile_suffix (fun c => c ≠ '/')).subset
      rw [hye]
      simp [hc]
    rcases takeWhile_append_stop (List.drop lead.length g) (')' :: R) hdne with ⟨hT, hD⟩
    by_cases hdir : List.takeWhile (fun c => c ≠ '/') (List.drop lead.length g) = []
    · left
      constructor
      · rw [matchTwoGroup,
          if_pos (by rw [isPrefixOf_close_boundary lead g R hlead hg]; exact hpf)]
        dsimp only
        rw [List.drop_append_of_le_length hlenle, hD, hye, List.cons_append]
        dsimp only
        rw [hT, if_pos hdir]
      · rw [targetTwoGroup, if_pos hpf]
        dsimp only
        rw [hye]
        dsimp only
        rw [if_pos hdir]
    · by_cases hcond : 4 ≤ e.length ∧ List.drop (e.length - 3) e = ".md".data
      · right
        refine ⟨e.take (e.length - 3), ?_, ?_⟩
        · rw [matchTwoGroup,
            if_pos (by rw [isPrefixOf_close_boundary lead g R hlead hg]; exact hpf)]
          dsimp only
          rw [List.drop_append_of_le_length hlenle, hD, hye, List.cons_append]
          dsimp only
          rw [hT, if_neg hdir]
          rw [takeWhile_ne_append e R he_sub, dropWhile_ne_append e R he_sub]
          dsimp only
          rw [if_pos hcond]
        · rw [targetTwoGroup, if_pos hpf]
          dsimp only
          rw [hye]
          dsimp only
          rw [if_neg hdir, if_pos hcond]
      · left
        constructor
        · rw [matchTwoGroup,
            if_pos (by rw [isPrefixOf_close_boundary lead g R hlead hg]; exact hpf)]
          dsimp only
          rw [List.drop_append_of_le_length hlenle, hD, hye, List.cons_append]
          dsimp only
          rw [hT, if_neg hdir]
          rw [takeWhile_ne_append e R he_sub, dropWhile_ne_append e R he_sub]
          dsimp only
          rw [if_neg hcond]
        · rw [targetTwoGroup, if_pos hpf]
          dsimp only
          rw [hye]
          dsimp only
          rw [if_neg hdir, if_neg hcond]
  · have hpf2 : lead.isPrefixOf g = false := by
      cases hx : lead.isPrefixOf g
      · rfl
      · exact absurd hx hpf
    left
    constructor
    · rw [matchTwoGroup, if_neg]
      rw [isPrefixOf_close_boundary lead g R hlead hg]
      simp [hpf2]
    · rw [targetTwoGroup, if_neg (by simp [hpf2])]

/-- A substitution pass over a rendered clean body rewrites each link target
independently: with a matcher and per-target transform that agree at every
link (either both fail, or the matcher consumes exactly the parenthesized
target), the pass equals rendering the transformed body. -/
theorem subPass_render (m : List Char → Option (List Char × List Char))
    (out f : List Char → List Char) :
    ∀ (l : List Seg) (fuel : Nat),
      scanOk l = true →
      (∀ t g R, Seg.link t g ∈ l →
        ((m (g ++ ')' :: R) = none ∧ f g = g) ∨
          (∃ grp, m (g ++ ')' :: R) = some (grp, R) ∧ f g = out grp))) →
      (render l).length ≤ fuel →
      subPass m out fuel (render l) = render (mapTargets f l) := by
  intro l
  induction l with
  | nil =>
    intro fuel _ _ _
    cases fuel <;> rfl
  | cons s rest ih =>
    intro fuel hok hjoint hlen
    have hoks : segScan s = true := List.all_eq_true.mp hok s (by simp)
    have hokr : scanOk rest = true := by
      apply List.all_eq_true.mpr
      intro x hx
      exact List.all_eq_true.mp hok x (by simp [hx])
    have hjr : ∀ t g R, Seg.link t g ∈ rest →
        ((m (g ++ ')' :: R) = none ∧ f g = g) ∨
          (∃ grp, m (g ++ ')' :: R) = some (grp, R) ∧ f g = out grp)) :=
      fun t g R hmem => hjoint t g R (by simp [hmem])
    cases s with
    | txt x =>
      have hx : ∀ c ∈ x, c ≠ ']' := by
        intro c hc
        have := List.all_eq_true.mp hoks c hc
        simpa using this
      rw [render_cons, show renderSeg (Seg.txt x) = x from rfl] at hlen ⊢
      have hlen2 : x.length + (render rest).length ≤ fuel := by
        simpa [List.length_append] using hlen
      rw [subPass_append_clean m out x fuel (render rest) hx hlen2]
      rw [ih (fuel - x.length) hokr hjr (by omega)]
      rw [show mapTargets f (Seg.txt x :: rest) = Seg.txt x :: mapTargets f rest from rfl,
        render_cons]
      rfl
    | link t g =>
      simp only [segScan, Bool.and_eq_true] at hoks
      obtain ⟨⟨htbr, hgbr⟩, hgcl⟩ := hoks
    
      have htbr2 : ∀ c ∈ t, c ≠ ']' := by
        intro c hc
        have := List.all_eq_true.mp htbr c hc
        simpa using this
      have hgbr2 : ∀ c ∈ g, c ≠ ']' := by
        intro c hc
        have := List.all_eq_true.mp hgbr c hc
        simpa using this
      rw [render_cons, show renderSeg (Seg.link t g) ++ render rest =
        '[' :: (t ++ ']' :: '(' :: (g ++ ')' :: render rest)) from by
          simp [renderSeg, List.append_assoc]] at hlen ⊢
      have hlen4 : t.length + g.length + (render rest).length + 4 ≤ fuel := by
        have := hlen
        simp only [List.length_cons, List.length_append] at this
        omega
      obtain ⟨n, hn⟩ : ∃ n, fuel = n + 1 := ⟨fuel - 1, by omega⟩
      subst hn
      rw [subPass.eq_def]
      dsimp only
      rw [if_neg (by decide)]
      rw [subPass_append_clean m out t n (']' :: '(' :: (g ++ ')' :: render rest)) htbr2 (by
        simp only [List.length_cons, List.length_append]
        omega)]
      obtain ⟨k, hk⟩ : ∃ k, n - t.length = k + 1 := ⟨n - t.length - 1, by omega⟩
      rw [hk, subPass.eq_def]
      dsimp only
      rw [if_pos rfl, if_pos rfl]
      rcases hjoint t g (render rest) (by simp) with ⟨hm, hf⟩ | ⟨grp, hm, hf⟩
      · rw [hm]
        dsimp only
        obtain ⟨k2, hk2⟩ : ∃ k2, k = k2 + 1 := ⟨k - 1, by omega⟩
        rw [hk2, subPass.eq_def]
        dsimp only
        rw [if_neg (by decide)]
        rw [subPass_append_clean m out g k2 (')' :: render rest) hgbr2 (by
          simp only [List.length_cons]
          omega)]
        obtain ⟨k3, hk3⟩ : ∃ k3, k2 - g.length = k3 + 1 := ⟨k2 - g.length - 1, by omega⟩
        rw [hk3, subPass.eq_def]
        dsimp only
        rw [if_neg (by decide)]
        rw [ih k3 hokr hjr (by omega)]
        rw [show mapTargets f (Seg.link t g :: rest) =
          Seg.link t (f g) :: mapTargets f rest from rfl, render_cons, hf]
        simp [renderSeg, List.append_assoc]
      · rw [hm]
        dsimp only
        rw [ih k hokr hjr (by omega)]
        rw [show mapTargets f (Seg.link t g :: rest) =
          Seg.link t (f g) :: mapTargets f rest from rfl, render_cons, hf]
        simp [renderSeg, List.append_assoc]

theorem not_mem_foldl_replace {a : Char} :
    ∀ (table : List (List Char × List Char)) (t : List Char), a ∉ t →
      (∀ pr ∈ table, a ∉ pr.2) →
      a ∉ table.foldl (fun acc pr => pyReplace pr.1 pr.2 acc) t := by
  intro table
  induction table with
  | nil => intro t ht _; exact ht
  | cons hd tl ih =>
    intro t ht hrep
    rw [List.foldl_cons]
    exact ih _ (not_mem_pyReplace (hrep hd (by simp)) ht)
      (fun pr hpr => hrep pr (by simp [hpr]))

/-- The Title Normalizer introduces no character that is not an ASCII letter,
a space, a hyphen or the combining caron of the title expansion, beyond those
already present. -/
theorem not_mem_normalize {a : Char}
    (hu : ¬(65 ≤ a.toNat ∧ a.toNat ≤ 90)) (hl : ¬(97 ≤ a.toNat ∧ a.toNat ≤ 122))
    (hcc : a.toNat ≠ 780)
    (hsp : a ≠ ' ') (hda : a ≠ '-')
    (hrep : ∀ pr ∈ title_mapping, a ∉ pr.2) {g : List Char} (hg : a ∉ g) :
    a ∉ convert_filename_to_wiki_title g := by
  simp only [convert_filename_to_wiki_title]
  apply not_mem_foldl_replace _ _ _ hrep
  simp only [hyphenTitle]
  apply not_mem_pyReplace (by simpa using hda)
  apply pyTitleAux_not_mem hu hl hcc
  apply not_mem_pyReplace (by simpa using hsp)
  apply not_mem_pyReplace (by simp)
  exact hg

theorem not_mem_targetOneGroup {a : Char} {lead g : List Char}
    (out : List Char → List Char)
    (hout : ∀ x : List Char, a ∉ x → a ∉ out x) (hg : a ∉ g) :
    a ∉ targetOneGroup lead out g := by
  rw [targetOneGroup]
  by_cases hpf : lead.isPrefixOf g = true
  · rw [if_pos hpf]
    dsimp only
    by_cases hcond : 4 ≤ (List.drop lead.length g).length ∧
        List.drop ((List.drop lead.length g).length - 3) (List.drop lead.length g) =
          ".md".data
    · rw [if_pos hcond]
      apply hout
      intro hmem
      exact hg (List.drop_subset _ _ (List.take_subset _ _ hmem))
    · rw [if_neg hcond]
      exact hg
  · rw [if_neg (by simpa using hpf)]
    exact hg

theorem not_mem_targetTwoGroup {a : Char} {lead g : List Char}
    (out : List Char → List Char)
    (hout : ∀ x : List Char, a ∉ x → a ∉ out x) (hg : a ∉ g) :
    a ∉ targetTwoGroup lead out g := by
  rw [targetTwoGroup]
  by_cases hpf : lead.isPrefixOf g = true
  · rw [if_pos hpf]
    dsimp only
    cases hdw : List.dropWhile (fun c => c ≠ '/') (List.drop lead.length g) with
    | nil => exact hg
    | cons y e =>
      have he : a ∉ e := by
        intro hmem
        apply hg
        apply List.drop_subset lead.length
        apply (List.dropWhile_suffix (fun c => c ≠ '/')).subset
        rw [hdw]
        simp [hmem]
      dsimp only
      by_cases hdir : List.takeWhile (fun c => c ≠ '/') (List.drop lead.length g) = []
      · rw [if_pos hdir]
        exact hg
      · rw [if_neg hdir]
        by_cases hcond : 4 ≤ e.length ∧ List.drop (e.length - 3) e = ".md".data
        · rw [if_pos hcond]
          apply hout
          intro hmem
          exact he (List.take_subset _ _ hmem)
        · rw [if_neg hcond]
          exact hg
  · rw [if_neg (by simpa using hpf)]
    exact hg

theorem mem_mapTargets {f : List Char → List Char} {l : List Seg} {t g2 : List Char}
    (h : Seg.link t g2 ∈ mapTargets f l) : ∃ g, Seg.link t g ∈ l ∧ g2 = f g := by
  simp only [mapTargets, List.mem_map] at h
  rcases h with ⟨s, hs, he⟩
  cases s with
  | txt x => simp at he
  | link t3 g3 =>
    simp only [Seg.link.injEq] at he
    exact ⟨g3, he.1 ▸ hs, he.2.symm⟩

theorem txt_mem_mapTargets {f : List Char → List Char} {l : List Seg} {x : List Char}
    (h : Seg.txt x ∈ mapTargets f l) : Seg.txt x ∈ l := by
  simp only [mapTargets, List.mem_map] at h
  rcases h with ⟨s, hs, he⟩
  cases s with
  | txt y => simp only [Seg.txt.injEq] at he; rw [← he]; exact hs
  | link t3 g3 => simp at he

theorem mapTargets_mapTargets (f1 f2 : List Char → List Char) (l : List Seg) :
    mapTargets f2 (mapTargets f1 l) = mapTargets (fun g => f2 (f1 g)) l := by
  simp only [mapTargets, List.map_map]
  apply List.map_congr_left
  intro s _
  cases s <;> rfl

theorem numLinks_mapTargets (f : List Char → List Char) (l : List Seg) :
    numLinks (mapTargets f l) = numLinks l := by
  simp only [numLinks, mapTargets]
  induction l with
  | nil => rfl
  | cons s rest ih =>
    cases s with
    | txt x => simpa [List.filter_cons] using ih
    | link t g => simpa [List.filter_cons] using ih

theorem not_mem_of_all_ne {a : Char} {l : List Char}
    (h : (l.all fun c => c ≠ a) = true) : a ∉ l := by
  intro hm
  have := List.all_eq_true.mp h a hm
  simp at this

theorem all_ne_of_not_mem {a : Char} {l : List Char} (h : a ∉ l) :
    (l.all fun c => c ≠ a) = true := by
  apply List.all_eq_true.mpr
  intro x hx
  have : x ≠ a := fun he => h (he ▸ hx)
  simpa using this

theorem ne_of_cleanChar {c : Char} (h : cleanChar c = true) :
    c ≠ '[' ∧ c ≠ ']' ∧ c ≠ '(' ∧ c ≠ ')' := by
  simp only [cleanChar, Bool.not_eq_true', Bool.or_eq_false_iff, decide_eq_false_iff_not]
    at h
  exact ⟨h.1.1.1, h.1.1.2, h.1.2, h.2⟩

theorem normalize_tclean {g : List Char} (h : ']' ∉ g ∧ ')' ∉ g) :
    ']' ∉ convert_filename_to_wiki_title g ∧ ')' ∉ convert_filename_to_wiki_title g :=
  ⟨not_mem_normalize (by decide) (by decide) (by decide) (by decide) (by decide)
      (by decide) h.1,
    not_mem_normalize (by decide) (by decide) (by decide) (by decide) (by decide)
      (by decide) h.2⟩

theorem targetOneGroup_tclean {lead : List Char} {out : List Char → List Char}
    (hout1 : ∀ x : List Char, ']' ∉ x → ']' ∉ out x)
    (hout2 : ∀ x : List Char, ')' ∉ x → ')' ∉ out x)
    {g : List Char} (h : ']' ∉ g ∧ ')' ∉ g) :
    ']' ∉ targetOneGroup lead out g ∧ ')' ∉ targetOneGroup lead out g :=
  ⟨not_mem_targetOneGroup out hout1 h.1, not_mem_targetOneGroup out hout2 h.2⟩

theorem targetTwoGroup_tclean {lead : List Char} {out : List Char → List Char}
    (hout1 : ∀ x : List Char, ']' ∉ x → ']' ∉ out x)
    (hout2 : ∀ x : List Char, ')' ∉ x → ')' ∉ out x)
    {g : List Char} (h : ']' ∉ g ∧ ')' ∉ g) :
    ']' ∉ targetTwoGroup lead out g ∧ ')' ∉ targetTwoGroup lead out g :=
  ⟨not_mem_targetTwoGroup out hout1 h.1, not_mem_targetTwoGroup out hout2 h.2⟩

theorem scanOk_mapTargets {f : List Char → List Char}
    (hf : ∀ g : List Char, (']' ∉ g ∧ ')' ∉ g) → (']' ∉ f g ∧ ')' ∉ f g))
    {l : List Seg} (h : scanOk l = true) : scanOk (mapTargets f l) = true := by
  apply List.all_eq_true.mpr
  intro s hs
  cases s with
  | txt x =>
    exact List.all_eq_true.mp h (Seg.txt x) (txt_mem_mapTargets hs)
  | link t g2 =>
    rcases mem_mapTargets hs with ⟨g, hgm, he⟩
    have h0 := List.all_eq_true.mp h (Seg.link t g) hgm
    simp only [segScan, Bool.and_eq_true] at h0
    obtain ⟨⟨ht, hgb⟩, hgc⟩ := h0
    have hcl := hf g ⟨not_mem_of_all_ne hgb, not_mem_of_all_ne hgc⟩
    subst he
    simp only [segScan, Bool.and_eq_true]
    exact ⟨⟨ht, all_ne_of_not_mem hcl.1⟩, all_ne_of_not_mem hcl.2⟩

/-! ### Claim C2, amended -/

/-- C2, amended: over well-formed bodies (plain text and link texts free of
bracket characters, targets nonempty and bracket-free) whose targets are safe
for the pipeline (a directory pattern that applies stays inside its target,
and the fully rewritten target is nonempty), the Link Rewriter preserves the
number of inline links: both input and output contain exactly one counted
link per link segment. -/
theorem c2_amended (l : List Seg) (hok : bodyOk l = true) :
    countLinks (convert_link_patterns (render l)) = countLinks (render l) := by
  have hseg : ∀ s ∈ l, segOk s = true := List.all_eq_true.mp hok
  have hlink : ∀ t g, Seg.link t g ∈ l →
      t.isEmpty = false ∧ (t.all fun c => c ≠ ']') = true ∧
        (∀ c ∈ g, cleanChar c = true) ∧ g.isEmpty = false ∧ linkTargetSafe g = true := by
    intro t g hm
    have h0 := hseg _ hm
    simp only [segOk, Bool.and_eq_true, Bool.not_eq_true'] at h0
    obtain ⟨⟨⟨⟨hte, htc⟩, hgc⟩, hge⟩, hsafe⟩ := h0
    refine ⟨hte, ?_, List.all_eq_true.mp hgc, hge, hsafe⟩
    apply List.all_eq_true.mpr
    intro c hc
    have := (ne_of_cleanChar (List.all_eq_true.mp htc c hc)).2.1
    simpa using this
  have hgt : ∀ t g, Seg.link t g ∈ l → (']' ∉ g ∧ ')' ∉ g) := by
    intro t g hm
    have h3 := (hlink t g hm).2.2.1
    constructor
    · intro hmem
      exact (ne_of_cleanChar (h3 _ hmem)).2.1 rfl
    · intro hmem
      exact (ne_of_cleanChar (h3 _ hmem)).2.2.2 rfl
  have hscan0 : scanOk l = true := by
    apply List.all_eq_true.mpr
    intro s hs
    cases s with
    | txt x =>
      have h0 := hseg _ hs
      simp only [segOk] at h0
      simp only [segScan]
      apply List.all_eq_true.mpr
      intro c hc
      have := (ne_of_cleanChar (List.all_eq_true.mp h0 c hc)).2.1
      simpa using this
    | link t g =>
      have h1 := hlink t g hs
      have h2 := hgt t g hs
      simp only [segScan, Bool.and_eq_true]
      exact ⟨⟨h1.2.1, all_ne_of_not_mem h2.1⟩, all_ne_of_not_mem h2.2⟩
  have hnorm1 : ∀ x : List Char, ']' ∉ x → ']' ∉ convert_filename_to_wiki_title x :=
    fun x hx =>
      not_mem_normalize (by decide) (by decide) (by decide) (by decide) (by decide)
        (by decide) hx
  have hnorm2 : ∀ x : List Char, ')' ∉ x → ')' ∉ convert_filename_to_wiki_title x :=
    fun x hx =>
      not_mem_normalize (by decide) (by decide) (by decide) (by decide) (by decide)
        (by decide) hx
  have hid1 : ∀ x : List Char, ']' ∉ x → ']' ∉ id x := fun _ hx => hx
  have hid2 : ∀ x : List Char, ')' ∉ x → ')' ∉ id x := fun _ hx => hx
  have hc1 : ∀ g : List Char, (']' ∉ g ∧ ')' ∉ g) →
      (']' ∉ targetOneGroup "./".data id g ∧ ')' ∉ targetOneGroup "./".data id g) :=
    fun g h => targetOneGroup_tclean hid1 hid2 h
  have hc2 : ∀ g : List Char, (']' ∉ g ∧ ')' ∉ g) →
      (']' ∉ targetOneGroup "../".data id (targetOneGroup "./".data id g) ∧
        ')' ∉ targetOneGroup "../".data id (targetOneGroup "./".data id g)) :=
    fun g h => targetOneGroup_tclean hid1 hid2 (hc1 g h)
  have hc3 : ∀ g : List Char, (']' ∉ g ∧ ')' ∉ g) →
      (']' ∉ targetTwoGroup "../".data convert_filename_to_wiki_title
          (targetOneGroup "../".data id (targetOneGroup "./".data id g)) ∧
        ')' ∉ targetTwoGroup "../".data convert_filename_to_wiki_title
          (targetOneGroup "../".data id (targetOneGroup "./".data id g))) :=
    fun g h => targetTwoGroup_tclean hnorm1 hnorm2 (hc2 g h)
  have hc4 : ∀ g : List Char, (']' ∉ g ∧ ')' ∉ g) →
      (']' ∉ targetOneGroup "../../".data id
          (targetTwoGroup "../".data convert_filename_to_wiki_title
            (targetOneGroup "../".data id (targetOneGroup "./".data id g))) ∧
        ')' ∉ targetOneGroup "../../".data id
          (targetTwoGroup "../".data convert_filename_to_wiki_title
            (targetOneGroup "../".data id (targetOneGroup "./".data id g)))) :=
    fun g h => targetOneGroup_tclean hid1 hid2 (hc3 g h)
  have hc5 : ∀ g : List Char, (']' ∉ g ∧ ')' ∉ g) →
      (']' ∉ targetTwoGroup "./".data convert_filename_to_wiki_title
          (targetOneGroup "../../".data id
            (targetTwoGroup "../".data convert_filename_to_wiki_title
              (targetOneGroup "../".data id (targetOneGroup "./".data id g)))) ∧
        ')' ∉ targetTwoGroup "./".data convert_filename_to_wiki_title
          (targetOneGroup "../../".data id
            (targetTwoGroup "../".data convert_filename_to_wiki_title
              (targetOneGroup "../".data id (targetOneGroup "./".data id g))))) :=
    fun g h => targetTwoGroup_tclean hnorm1 hnorm2 (hc4 g h)
  -- stage 1: body l, pass 1
  have hj1 : ∀ t g R, Seg.link t g ∈ l →
      ((matchOneGroup "./".data (g ++ ')' :: R) = none ∧
          targetOneGroup "./".data id g = g) ∨
        (∃ grp, matchOneGroup "./".data (g ++ ')' :: R) = some (grp, R) ∧
          targetOneGroup "./".data id g = id grp)) :=
    fun t g R hm => matchOneGroup_link_cases "./".data g R id (by decide)
      (fun c hc he => (hgt t g hm).2 (he ▸ hc))
  -- stage 2: body l1
  have hgt1 : ∀ t g2, Seg.link t g2 ∈ mapTargets (targetOneGroup "./".data id) l →
      (']' ∉ g2 ∧ ')' ∉ g2) := by
    intro t g2 hm
    rcases mem_mapTargets hm with ⟨g, hgm, he⟩
    subst he
    exact hc1 g (hgt t g hgm)
  have hscan1 : scanOk (mapTargets (targetOneGroup "./".data id) l) = true :=
    scanOk_mapTargets hc1 hscan0
  have hj2 : ∀ t g R, Seg.link t g ∈ mapTargets (targetOneGroup "./".data id) l →
      ((matchOneGroup "../".data (g ++ ')' :: R) = none ∧
          targetOneGroup "../".data id g = g) ∨
        (∃ grp, matchOneGroup "../".data (g ++ ')' :: R) = some (grp, R) ∧
          targetOneGroup "../".data id g = id grp)) :=
    fun t g R hm => matchOneGroup_link_cases "../".data g R id (by decide)
      (fun c hc he => (hgt1 t g hm).2 (he ▸ hc))
  -- stage 3: body l2, two-group pass with lead ../
  have hgt2 : ∀ t g2, Seg.link t g2 ∈ mapTargets
        (fun g => targetOneGroup "../".data id (targetOneGroup "./".data id g)) l →
      (']' ∉ g2 ∧ ')' ∉ g2) := by
    intro t g2 hm
    rcases mem_mapTargets hm with ⟨g, hgm, he⟩
    subst he
    exact hc2 g (hgt t g hgm)
  have hscan2 : scanOk (mapTargets
      (fun g => targetOneGroup "../".data id (targetOneGroup "./".data id g)) l) = true :=
    scanOk_mapTargets hc2 hscan0
  have hst2 : ∀ t g2, Seg.link t g2 ∈ mapTargets
        (fun g => targetOneGroup "../".data id (targetOneGroup "./".data id g)) l →
      twoGroupStays "../".data g2 = true := by
    intro t g2 hm
    rcases mem_mapTargets hm with ⟨g, hgm, he⟩
    subst he
    have hsafe := (hlink t g hgm).2.2.2.2
    simp only [linkTargetSafe, Bool.and_eq_true] at hsafe
    exact hsafe.1.1
  have hj3 : ∀ t g R, Seg.link t g ∈ mapTargets
        (fun g => targetOneGroup "../".data id (targetOneGroup "./".data id g)) l →
      ((matchTwoGroup "../".data (g ++ ')' :: R) = none ∧
          targetTwoGroup "../".data convert_filename_to_wiki_title g = g) ∨
        (∃ grp, matchTwoGroup "../".data (g ++ ')' :: R) = some (grp, R) ∧
          targetTwoGroup "../".data convert_filename_to_wiki_title g =
            convert_filename_to_wiki_title grp)) :=
    fun t g R hm => matchTwoGroup_link_cases "../".data g R
      convert_filename_to_wiki_title (by decide)
      (fun c hc he => (hgt2 t g hm).2 (he ▸ hc)) (hst2 t g hm)
  -- stage 4: body l3
  have hgt3 : ∀ t g2, Seg.link t g2 ∈ mapTargets
        (fun g => targetTwoGroup "../".data convert_filename_to_wiki_title
          (targetOneGroup "../".data id (targetOneGroup "./".data id g))) l →
      (']' ∉ g2 ∧ ')' ∉ g2) := by
    intro t g2 hm
    rcases mem_mapTargets hm with ⟨g, hgm, he⟩
    subst he
    exact hc3 g (hgt t g hgm)
  have hscan3 : scanOk (mapTargets
      (fun g => targetTwoGroup "../".data convert_filename_to_wiki_title
        (targetOneGroup "../".data id (targetOneGroup "./".data id g))) l) = true :=
    scanOk_mapTargets hc3 hscan0
  have hj4 : ∀ t g R, Seg.link t g ∈ mapTargets
        (fun g => targetTwoGroup "../".data convert_filename_to_wiki_title
          (targetOneGroup "../".data id (targetOneGroup "./".data id g))) l →
      ((matchOneGroup "../../".data (g ++ ')' :: R) = none ∧
          targetOneGroup "../../".data id g = g) ∨
        (∃ grp, matchOneGroup "../../".data (g ++ ')' :: R) = some (grp, R) ∧
          targetOneGroup "../../".data id g = id grp)) :=
    fun t g R hm => matchOneGroup_link_cases "../../".data g R id (by decide)
      (fun c hc he => (hgt3 t g hm).2 (he ▸ hc))
  -- stage 5: body l4, two-group pass with lead ./
  have hgt4 : ∀ t g2, Seg.link t g2 ∈ mapTargets
        (fun g => targetOneGroup "../../".data id
          (targetTwoGroup "../".data convert_filename_to_wiki_title
            (targetOneGroup "../".data id (targetOneGroup "./".data id g)))) l →
      (']' ∉ g2 ∧ ')' ∉ g2) := by
    intro t g2 hm
    rcases mem_mapTargets hm with ⟨g, hgm, he⟩
    subst he
    exact hc4 g (hgt t g hgm)
  have hscan4 : scanOk (mapTargets
      (fun g => targetOneGroup "../../".data id
        (targetTwoGroup "../".data convert_filename_to_wiki_title
          (targetOneGroup "../".data id (targetOneGroup "./".data id g)))) l) = true :=
    scanOk_mapTargets hc4 hscan0
  have hst4 : ∀ t g2, Seg.link t g2 ∈ mapTargets
        (fun g => targetOneGroup "../../".data id
          (targetTwoGroup "../".data convert_filename_to_wiki_title
            (targetOneGroup "../".data id (targetOneGroup "./".data id g)))) l →
      twoGroupStays "./".data g2 = true := by
    intro t g2 hm
    rcases mem_mapTargets hm with ⟨g, hgm, he⟩
    subst he
    have hsafe := (hlink t g hgm).2.2.2.2
    simp only [linkTargetSafe, Bool.and_eq_true] at hsafe
    exact hsafe.1.2
  have hj5 : ∀ t g R, Seg.link t g ∈ mapTargets
        (fun g => targetOneGroup "../../".data id
          (targetTwoGroup "../".data convert_filename_to_wiki_title
            (targetOneGroup "../".data id (targetOneGroup "./".data id g)))) l →
      ((matchTwoGroup "./".data (g ++ ')' :: R) = none ∧
          targetTwoGroup "./".data convert_filename_to_wiki_title g = g) ∨
        (∃ grp, matchTwoGroup "./".data (g ++ ')' :: R) = some (grp, R) ∧
          targetTwoGroup "./".data convert_filename_to_wiki_title g =
            convert_filename_to_wiki_title grp)) :=
    fun t g R hm => matchTwoGroup_link_cases "./".data g R
      convert_filename_to_wiki_title (by decide)
      (fun c hc he => (hgt4 t g hm).2 (he ▸ hc)) (hst4 t g hm)
  -- stage 6: body l5, bare pattern
  have hgt5 : ∀ t g2, Seg.link t g2 ∈ mapTargets
        (fun g => targetTwoGroup "./".data convert_filename_to_wiki_title
          (targetOneGroup "../../".data id
            (targetTwoGroup "../".data convert_filename_to_wiki_title
              (targetOneGroup "../".data id (targetOneGroup "./".data id g))))) l →
      (']' ∉ g2 ∧ ')' ∉ g2) := by
    intro t g2 hm
    rcases mem_mapTargets hm with ⟨g, hgm, he⟩
    subst he
    exact hc5 g (hgt t g hgm)
  have hscan5 : scanOk (mapTargets
      (fun g => targetTwoGroup "./".data convert_filename_to_wiki_title
        (targetOneGroup "../../".data id
          (targetTwoGroup "../".data convert_filename_to_wiki_title
            (targetOneGroup "../".data id (targetOneGroup "./".data id g))))) l) = true :=
    scanOk_mapTargets hc5 hscan0
  have hj6 : ∀ t g R, Seg.link t g ∈ mapTargets
        (fun g => targetTwoGroup "./".data convert_filename_to_wiki_title
          (targetOneGroup "../../".data id
            (targetTwoGroup "../".data convert_filename_to_wiki_title
              (targetOneGroup "../".data id (targetOneGroup "./".data id g))))) l →
      ((matchOneGroup [] (g ++ ')' :: R) = none ∧
          targetOneGroup [] convert_filename_to_wiki_title g = g) ∨
        (∃ grp, matchOneGroup [] (g ++ ')' :: R) = some (grp, R) ∧
          targetOneGroup [] convert_filename_to_wiki_title g =
            convert_filename_to_wiki_title grp)) :=
    fun t g R hm => matchOneGroup_link_cases [] g R
      convert_filename_to_wiki_title (by simp)
      (fun c hc he => (hgt5 t g hm).2 (he ▸ hc))
  -- count facts
  have hcount0 : countOk l = true := by
    apply List.all_eq_true.mpr
    intro s hs
    cases s with
    | txt x =>
      have h0 := hseg _ hs
      simp only [segOk] at h0
      simp only [segCount]
      apply List.all_eq_true.mpr
      intro c hc
      have := (ne_of_cleanChar (List.all_eq_true.mp h0 c hc)).1
      simpa using this
    | link t g =>
      have h1 := hlink t g hs
      have h2 := hgt t g hs
      simp only [segCount, Bool.and_eq_true, Bool.not_eq_true']
      exact ⟨⟨⟨h1.1, h1.2.1⟩, h1.2.2.2.1⟩, all_ne_of_not_mem h2.2⟩
  have hcount6 : countOk (mapTargets
      (fun g => targetOneGroup [] convert_filename_to_wiki_title
        (targetTwoGroup "./".data convert_filename_to_wiki_title
          (targetOneGroup "../../".data id
            (targetTwoGroup "../".data convert_filename_to_wiki_title
              (targetOneGroup "../".data id (targetOneGroup "./".data id g)))))) l) =
      true := by
    apply List.all_eq_true.mpr
    intro s hs
    cases s with
    | txt x =>
      have h0 := hseg _ (txt_mem_mapTargets hs)
      simp only [segOk] at h0
      simp only [segCount]
      apply List.all_eq_true.mpr
      intro c hc
      have := (ne_of_cleanChar (List.all_eq_true.mp h0 c hc)).1
      simpa using this
    | link t g2 =>
      rcases mem_mapTargets hs with ⟨g, hgm, he⟩
      have h1 := hlink t g hgm
      have hclean := @targetOneGroup_tclean [] convert_filename_to_wiki_title
        hnorm1 hnorm2 _ (hc5 g (hgt t g hgm))
      have hsafe := h1.2.2.2.2
      simp only [linkTargetSafe, Bool.and_eq_true, Bool.not_eq_true'] at hsafe
      have hemp : (rewriteTarget g).isEmpty = false := hsafe.2
      have hre : rewriteTarget g =
          targetOneGroup [] convert_filename_to_wiki_title
            (targetTwoGroup "./".data convert_filename_to_wiki_title
              (targetOneGroup "../../".data id
                (targetTwoGroup "../".data convert_filename_to_wiki_title
                  (targetOneGroup "../".data id (targetOneGroup "./".data id g))))) := rfl
      subst he
      simp only [segCount, Bool.and_eq_true, Bool.not_eq_true']
      refine ⟨⟨⟨h1.1, h1.2.1⟩, ?_⟩, all_ne_of_not_mem hclean.2⟩
      rw [← hre]
      exact hemp
  -- chain the six passes
  simp only [convert_link_patterns]
  rw [subPass_render (matchOneGroup "./".data) id (targetOneGroup "./".data id)
    l (render l).length hscan0 hj1 le_rfl]
  rw [subPass_render (matchOneGroup "../".data) id (targetOneGroup "../".data id)
    (mapTargets (targetOneGroup "./".data id) l)
    (render (mapTargets (targetOneGroup "./".data id) l)).length hscan1 hj2 le_rfl]
  rw [mapTargets_mapTargets]
  rw [subPass_render (matchTwoGroup "../".data) convert_filename_to_wiki_title
    (targetTwoGroup "../".data convert_filename_to_wiki_title)
    (mapTargets (fun g => targetOneGroup "../".data id (targetOneGroup "./".data id g)) l)
    _ hscan2 hj3 le_rfl]
  rw [mapTargets_mapTargets]
  rw [subPass_render (matchOneGroup "../../".data) id (targetOneGroup "../../".data id)
    (mapTargets (fun g => targetTwoGroup "../".data convert_filename_to_wiki_title
      (targetOneGroup "../".data id (targetOneGroup "./".data id g))) l)
    _ hscan3 hj4 le_rfl]
  rw [mapTargets_mapTargets]
  rw [subPass_render (matchTwoGroup "./".data) convert_filename_to_wiki_title
    (targetTwoGroup "./".data convert_filename_to_wiki_title)
    (mapTargets (fun g => targetOneGroup "../../".data id
      (targetTwoGroup "../".data convert_filename_to_wiki_title
        (targetOneGroup "../".data id (targetOneGroup "./".data id g)))) l)
    _ hscan4 hj5 le_rfl]
  rw [mapTargets_mapTargets]
  rw [subPass_render (matchOneGroup []) convert_filename_to_wiki_title
    (targetOneGroup [] convert_filename_to_wiki_title)
    (mapTargets (fun g => targetTwoGroup "./".data convert_filename_to_wiki_title
      (targetOneGroup "../../".data id
        (targetTwoGroup "../".data convert_filename_to_wiki_title
          (targetOneGroup "../".data id (targetOneGroup "./".data id g))))) l)
    _ hscan5 hj6 le_rfl]
  rw [mapTargets_mapTargets]
  -- compare the counts
  simp only [countLinks]
  rw [countLinksAux_render _ _ hcount6 le_rfl, countLinksAux_render _ _ hcount0 le_rfl,
    numLinks_mapTargets]

/-- C2, witness: the amended preservation statement on a concrete body with
two links, one rewritten by the current-directory pattern and one by the
bare-reference pattern. -/
theorem c2_amended_witness :
    bodyOk [Seg.txt "intro ".data, Seg.link "see".data "./guides/setup.md".data,
        Seg.txt " and ".data, Seg.link "y".data "notes.md".data] = true ∧
      countLinks (convert_link_patterns (render [Seg.txt "intro ".data,
          Seg.link "see".data "./guides/setup.md".data, Seg.txt " and ".data,
          Seg.link "y".data "notes.md".data])) =
        countLinks (render [Seg.txt "intro ".data,
          Seg.link "see".data "./guides/setup.md".data, Seg.txt " and ".data,
          Seg.link "y".data "notes.md".data]) :=
  ⟨by decide, c2_amended [Seg.txt "intro ".data,
    Seg.link "see".data "./guides/setup.md".data, Seg.txt " and ".data,
    Seg.link "y".data "notes.md".data] (by decide)⟩
